import Mathlib

/-!
# Distributed sort (`sort_6_procs.c`, `sort_2_procs.c`)

A shallow embedding of the two MPI sorting programs.

* C `int` arrays are `List Int`; a pointer into an array is the suffix of the
  array that starts at the pointed-to slot (`&data[k]` is `data.drop k`).
* A `for (i = 0; i < n; i++)` loop whose body changes neither `i` nor `n` is a
  fold of the loop body over `List.range n`.
* An access to a data buffer outside its list is `none` (undefined
  behaviour); `counts[]` and `displs[]` are only read at ranks `r < size`,
  inside their `size` slots.
* The libc `qsort` and the MPI transport are external: `qsort` is a parameter,
  a blocking send is matched with the blocking receive that names it.
-/

namespace ParSort

/-! ## Partition loop (`sort_6_procs.c`, lines 75-84) -/

/-- The constant `NUM_ELEMENTS` (`#define NUM_ELEMENTS 50`). -/
def NUM_ELEMENTS : Nat := 50

/-- Local variables of the partition loop: `counts[]`, `displs[]`, `off`. -/
structure PartState where
  counts : List Nat
  displs : List Nat
  off : Nat
deriving DecidableEq, Repr

/-- Body of `for (int r = 0; r < size; r++)`:
`counts[r] = base + (r < rem ? 1 : 0); displs[r] = off; off += counts[r];`. -/
def partBody (base rem : Nat) (s : PartState) (r : Nat) : PartState :=
  let counts := s.counts.set r (base + (if r < rem then 1 else 0))
  let displs := s.displs.set r s.off
  { counts := counts, displs := displs, off := s.off + counts.getD r 0 }

/-- The partition loop for a total of `n` elements and `size` ranks:
`base = n / size; rem = n % size; off = 0;` then the loop.  The arrays have one
slot per rank (the source declares 6, the only group size that reaches the
loop); their initial contents are irrelevant, every slot is written.  All
values are non-negative and at most `n`, so a C `int` holds them whenever it
holds `n`. -/
def partitionLoop (n size : Nat) : PartState :=
  (List.range size).foldl (partBody (n / size) (n % size))
    { counts := List.replicate size 0, displs := List.replicate size 0, off := 0 }

/-! ## `merge` (both files, lines 31-58) -/

/-- Local variables of `merge`: the scratch buffer `sorted` and the two read
positions `a_i`, `b_i`. -/
structure MergeState where
  sorted : List Int
  a_i : Nat
  b_i : Nat
deriving DecidableEq, Repr

/-- Body of the loop of `merge` at loop index `i`; `sorted[i] = v` is
`sorted.set i v`. -/
def mergeBody (a : List Int) (numel_a : Nat) (b : List Int) (numel_b : Nat)
    (s : MergeState) (i : Nat) : Option MergeState :=
  if s.a_i < numel_a ∧ s.b_i < numel_b then
    match a[s.a_i]?, b[s.b_i]? with
    | some x, some y =>
      if x < y then
        some { sorted := s.sorted.set i x, a_i := s.a_i + 1, b_i := s.b_i }
      else
        some { sorted := s.sorted.set i y, a_i := s.a_i, b_i := s.b_i + 1 }
    | _, _ => none
  else
    if s.a_i < numel_a then
      match a[s.a_i]? with
      | some x => some { sorted := s.sorted.set i x, a_i := s.a_i + 1, b_i := s.b_i }
      | none => none
    else
      match b[s.b_i]? with
      | some y => some { sorted := s.sorted.set i y, a_i := s.a_i, b_i := s.b_i + 1 }
      | none => none

/-- State of `merge` after the first `k` iterations of its loop; `sorted` is the
freshly allocated buffer of `numel_a + numel_b` slots. -/
def mergeIter (a : List Int) (numel_a : Nat) (b : List Int) (numel_b : Nat) (k : Nat) :
    Option MergeState :=
  (List.range k).foldlM (mergeBody a numel_a b numel_b)
    { sorted := List.replicate (numel_a + numel_b) 0, a_i := 0, b_i := 0 }

/-- The call `memcpy(dst, src, cnt * sizeof(int))` for a destination that does
not overlap the source: the first `cnt` slots of `dst` become those of `src`. -/
def memcpy (dst src : List Int) (cnt : Nat) : Option (List Int) :=
  if cnt ≤ dst.length ∧ cnt ≤ src.length then some (src.take cnt ++ dst.drop cnt) else none

/-- The call `merge(a, numel_a, b, numel_b)`: `a` and `b` are the arrays as seen
from the two pointers; the result is the array seen from `a` after the call.
All reads of the loop precede the `memcpy`, so `b` may alias a part of `a`. -/
def merge (a : List Int) (numel_a : Nat) (b : List Int) (numel_b : Nat) : Option (List Int) :=
  match mergeIter a numel_a b numel_b (numel_a + numel_b) with
  | none => none
  | some s => memcpy a s.sorted (numel_a + numel_b)

/-! ## libc and MPI primitives -/

/-- The call `malloc(n * sizeof(int))`, or a local array of `n` ints: `n` slots
whose contents are unspecified (zero here; every slot is written before it is
read). -/
def malloc (n : Nat) : List Int := List.replicate n 0

/-- The array `data` once the memory seen from `&data[off]` has become `view`. -/
def storeAt (data : List Int) (off : Nat) (view : List Int) : List Int :=
  data.take off ++ view

/-- The call `MPI_Send(buf, count, MPI_INT, ...)`: the message is the first
`count` ints seen from `buf`. -/
def MPI_Send (buf : List Int) (count : Nat) : Option (List Int) :=
  if count ≤ buf.length then some (buf.take count) else none

/-- The call `MPI_Recv(buf, count, MPI_INT, ...)` completing with the message
`msg`: the message has to fit in `count` slots; the result is the memory seen
from `buf`. -/
def MPI_Recv (buf : List Int) (count : Nat) (msg : List Int) : Option (List Int) :=
  if msg.length ≤ count ∧ count ≤ buf.length then some (msg ++ buf.drop msg.length) else none

/-- The contract of the external local sorter (`qsort` with `compare_int`): the
result is ascending and a rearrangement of the argument. -/
def IsAscendingSort (qsort : List Int → List Int) : Prop :=
  ∀ l, (qsort l).Sorted (· ≤ ·) ∧ (qsort l).Perm l

/-- The rand loop of rank 0: `data[i] = rand() % NUM_ELEMENTS` for every `i`,
where `rand i` is the value of the `i`-th call of `rand()` after `srand(0)`. -/
def generate (rand : Nat → Nat) : List Int :=
  (List.range NUM_ELEMENTS).map (fun i => ((rand i % NUM_ELEMENTS : Nat) : Int))

/-! ## `sort_6_procs.c`: `main` -/

/-- Observable actions of one rank, in program order. -/
inductive Event where
  | diagnostic
  | generate (data : List Int)
  | send (dest : Nat) (payload : List Int)
  | recv (src : Nat)
  | scatter
  | gather
  | sort (result : List Int)
  | merge (r : Nat)
  | output (data : List Int)
deriving DecidableEq, Repr

/-- What `main` did on one rank: the value it returned and its actions. -/
structure Outcome where
  ret : Int
  trace : List Event
deriving DecidableEq, Repr

/-- Message of `MPI_Send(&data[displs[r]], counts[r], MPI_INT, r, ...)`. -/
def sendChunk (p : PartState) (data : List Int) (r : Nat) : Option (List Int) :=
  MPI_Send (data.drop (p.displs.getD r 0)) (p.counts.getD r 0)

/-- The `else` branch of `main` (ranks other than 0): receive `local_n` ints
from rank 0 into `local`, `qsort` them, send them back.  `msg` is the message
rank 0 sent (`none` if there is none); the result is the message sent back. -/
def workerBranch (qsort : List Int → List Int) (local_n : Nat) (msg : Option (List Int)) :
    Option (List Int) := do
  let m ← msg
  let local_buf ← MPI_Recv (malloc local_n) local_n m
  MPI_Send (qsort local_buf) local_n

/-- Rank 0, lines 101-113 without the sends: copy the own chunk into `local`,
`qsort` it, copy it back to `&data[displs[0]]`. -/
def ownChunk (qsort : List Int → List Int) (p : PartState) (data : List Int) :
    Option (List Int) := do
  let local_n := p.counts.getD 0 0
  let local_buf ← memcpy (malloc local_n) (data.drop (p.displs.getD 0 0)) local_n
  let view ← memcpy (data.drop (p.displs.getD 0 0)) (qsort local_buf) local_n
  pure (storeAt data (p.displs.getD 0 0) view)

/-- Body of the receive loop:
`MPI_Recv(&data[displs[r]], counts[r], MPI_INT, r, ...)`; `inbox r` is the
message rank `r` sent to rank 0. -/
def recvBody (p : PartState) (inbox : Nat → Option (List Int)) (data : List Int) (r : Nat) :
    Option (List Int) := do
  let m ← inbox r
  let view ← MPI_Recv (data.drop (p.displs.getD r 0)) (p.counts.getD r 0) m
  pure (storeAt data (p.displs.getD r 0) view)

/-- Rank 0's `data` after the first `k` iterations of the receive loop
(`for (int r = 1; r < size; r++)`). -/
def recvIter (qsort : List Int → List Int) (p : PartState) (inbox : Nat → Option (List Int))
    (data : List Int) (k : Nat) : Option (List Int) := do
  let d ← ownChunk qsort p data
  (List.range' 1 k).foldlM (recvBody p inbox) d

/-- Variables of the merge loop of rank 0. -/
structure FoldState where
  data : List Int
  merged_n : Nat
deriving DecidableEq, Repr

/-- Body of the merge loop:
`merge(&data[0], merged_n, &data[displs[r]], counts[r]); merged_n += counts[r];`. -/
def foldBody (p : PartState) (s : FoldState) (r : Nat) : Option FoldState := do
  let d ← merge s.data s.merged_n (s.data.drop (p.displs.getD r 0)) (p.counts.getD r 0)
  pure { data := d, merged_n := s.merged_n + p.counts.getD r 0 }

/-- State of the merge loop after its first `k` iterations, started on the
collected array `data` with `merged_n = counts[0]`. -/
def foldIter (p : PartState) (data : List Int) (k : Nat) : Option FoldState :=
  (List.range' 1 k).foldlM (foldBody p) { data := data, merged_n := p.counts.getD 0 0 }

/-- The `if (rank == 0)` branch of `main` after the data has been generated, for
a group of `size` ranks: every send must be possible, then own chunk, receive
loop and merge loop.  The result is the final `data` array. -/
def rank0Branch (qsort : List Int → List Int) (p : PartState)
    (inbox : Nat → Option (List Int)) (size : Nat) (data : List Int) : Option (List Int) :=
  if (List.range' 1 (size - 1)).all (fun r => (sendChunk p data r).isSome) then do
    let d ← recvIter qsort p inbox data (size - 1)
    let s ← foldIter p d (size - 1)
    pure s.data
  else none

/-- Actions of rank 0 in a complete run, in program order: generate and print
the data, send the chunks, sort the own chunk, receive the sorted chunks, merge
them one after the other, print the final array. -/
def trace6 (qsort : List Int → List Int) (p : PartState) (size : Nat) (data final : List Int) :
    List Event :=
  [Event.generate data] ++
    (List.range' 1 (size - 1)).map (fun r => Event.send r ((sendChunk p data r).getD [])) ++
    [Event.sort (qsort ((data.drop (p.displs.getD 0 0)).take (p.counts.getD 0 0)))] ++
    (List.range' 1 (size - 1)).map Event.recv ++
    (List.range' 1 (size - 1)).map Event.merge ++
    [Event.output final]

/-- Function `main` of `sort_6_procs.c` on rank `rank` of a group of `size` processes;
`inbox r` is the message rank `r` sent to this rank. -/
def main6 (qsort : List Int → List Int) (rand : Nat → Nat) (inbox : Nat → Option (List Int))
    (size rank : Nat) : Option Outcome :=
  if size ≠ 6 then
    some { ret := 0, trace := if rank = 0 then [Event.diagnostic] else [] }
  else
    let p := partitionLoop NUM_ELEMENTS size
    if rank = 0 then do
      let data := generate rand
      let final ← rank0Branch qsort p inbox size data
      pure { ret := 0, trace := trace6 qsort p size data final }
    else do
      let out ← workerBranch qsort (p.counts.getD rank 0) (inbox 0)
      pure { ret := 0, trace := [Event.recv 0, Event.sort out, Event.send 0 out] }

/-- The messages the workers of a `size`-rank group send back to rank 0 when
rank 0 holds `data`: worker `r` runs its branch on the chunk sent to it. -/
def workerReplies (qsort : List Int → List Int) (p : PartState) (data : List Int) (r : Nat) :
    Option (List Int) :=
  workerBranch qsort (p.counts.getD r 0) (sendChunk p data r)

/-- Rank 0's final `data` in a run of the whole group on the array `data`, for
`n = data.length` elements and `size` ranks. -/
def sortedBy (qsort : List Int → List Int) (size : Nat) (data : List Int) : Option (List Int) :=
  rank0Branch qsort (partitionLoop data.length size)
    (workerReplies qsort (partitionLoop data.length size) data) size data

/-- Rank 0 in a run of the six-rank program. -/
def run6 (qsort : List Int → List Int) (rand : Nat → Nat) : Option Outcome :=
  main6 qsort rand
    (workerReplies qsort (partitionLoop NUM_ELEMENTS 6) (generate rand)) 6 0

/-! ## `sort_2_procs.c`: `main` -/

/-- What `MPI_Scatter(data, half, MPI_INT, local, half, MPI_INT, 0, ...)`
delivers to rank `r`: `half` ints of the root's `data` from slot `r * half`. -/
def scatterPart (data : List Int) (half r : Nat) : Option (List Int) :=
  MPI_Send (data.drop (r * half)) half

/-- Every rank of the two-rank program between scatter and gather: receive the
part into `local` (`half` slots) and `qsort` it; the result is `local`. -/
def sortedPart (qsort : List Int → List Int) (half : Nat) (part : Option (List Int)) :
    Option (List Int) := do
  let m ← part
  let local_buf ← MPI_Recv (malloc half) half m
  pure (qsort local_buf)

/-- The call `MPI_Gather(local, half, MPI_INT, data, half, MPI_INT, 0, ...)` on the root,
for the contribution of rank `r`: `half` ints of that rank's `local` are stored
at `&data[r * half]`. -/
def gatherBody (half : Nat) (locals : Nat → Option (List Int)) (data : List Int) (r : Nat) :
    Option (List Int) := do
  let l ← locals r
  let m ← MPI_Send l half
  let view ← MPI_Recv (data.drop (r * half)) half m
  pure (storeAt data (r * half) view)

/-- The root's `data` after `MPI_Gather` in a group of `size` ranks. -/
def gathered (half size : Nat) (locals : Nat → Option (List Int)) (data : List Int) :
    Option (List Int) :=
  (List.range size).foldlM (gatherBody half locals) data

/-- Rank 0 of the two-rank program from the scatter to the merge, on the array
`data`; `locals r` is the sorted `local` of rank `r`.  The result is the final
`data` array. -/
def rootBranch2 (half size : Nat) (locals : Nat → Option (List Int)) (data : List Int) :
    Option (List Int) := do
  let d ← gathered half size locals data
  merge d half (d.drop half) half

/-- Actions of rank 0 of the two-rank program in a complete run. -/
def trace2 (data local_buf final : List Int) : List Event :=
  [Event.generate data, Event.scatter, Event.sort local_buf, Event.gather, Event.merge 1,
    Event.output final]

/-- Function `main` of `sort_2_procs.c` on rank `rank` of a group of `size` processes.
`part` is what the scatter delivers to this rank when it is not the root and
`locals r` is the buffer rank `r ≠ 0` contributes to the gather (the root
contributes its own `local`). -/
def main2 (qsort : List Int → List Int) (rand : Nat → Nat) (part : Option (List Int))
    (locals : Nat → Option (List Int)) (size rank : Nat) : Option Outcome :=
  if size ≠ 2 then
    some { ret := 0, trace := if rank = 0 then [Event.diagnostic] else [] }
  else if NUM_ELEMENTS % 2 ≠ 0 then
    some { ret := 0, trace := if rank = 0 then [Event.diagnostic] else [] }
  else
    let half := NUM_ELEMENTS / 2
    if rank = 0 then do
      let data := generate rand
      let local_buf ← sortedPart qsort half (scatterPart data half 0)
      let final ← rootBranch2 half size
        (fun r => if r = 0 then some local_buf else locals r) data
      pure { ret := 0, trace := trace2 data local_buf final }
    else do
      let local_buf ← sortedPart qsort half part
      pure { ret := 0, trace := [Event.scatter, Event.sort local_buf, Event.gather] }

/-- The sorted `local` buffers of the ranks of the two-rank program when the
root holds `data`. -/
def sortedParts (qsort : List Int → List Int) (half : Nat) (data : List Int) (r : Nat) :
    Option (List Int) :=
  sortedPart qsort half (scatterPart data half r)

/-- Rank 0's final `data` in a run of the two-rank program on the array `data`. -/
def sortedBy2 (qsort : List Int → List Int) (data : List Int) : Option (List Int) :=
  rootBranch2 (NUM_ELEMENTS / 2) 2 (sortedParts qsort (NUM_ELEMENTS / 2) data) data

/-- Rank 0 in a run of the two-rank program. -/
def run2 (qsort : List Int → List Int) (rand : Nat → Nat) : Option Outcome :=
  main2 qsort rand none (sortedParts qsort (NUM_ELEMENTS / 2) (generate rand)) 2 0

/-! ## `compare_int` (both files, lines 24-27) -/

/-- Smallest value of a C `int` (32 bits, two's complement). -/
def INT_MIN : Int := -2147483648

/-- Largest value of a C `int`. -/
def INT_MAX : Int := 2147483647

/-- The C `int` that is congruent to `z` modulo `2^32`: the value a 32-bit
subtraction leaves when the exact result is `z`. -/
def wrap32 (z : Int) : Int := (z + 2147483648) % 4294967296 - 2147483648

/-- The comparator `compare_int(&a, &b)`: `return (*(int *) a - *(int *) b);`
with the subtraction taken modulo `2^32`. -/
def compare_int (a b : Int) : Int := wrap32 (a - b)

/-! ## The libc `qsort` -/

/-- Contract of the libc call `qsort(base, n, sizeof(int), cmp)` as far as the
programs rely on it: when `cmp` orders the ints of the array as the integers
are ordered (a negative, zero or positive result for less, equal, greater), the
array ends ascending and is a rearrangement of what it was.  Nothing is
promised for a comparator that does not order the array consistently. -/
def IsQsort (qs : (Int → Int → Int) → List Int → List Int) : Prop :=
  ∀ (cmp : Int → Int → Int) (l : List Int),
    (∀ x, x ∈ l → ∀ y, y ∈ l →
      (cmp x y < 0 ↔ x < y) ∧ (cmp x y = 0 ↔ x = y) ∧ (0 < cmp x y ↔ y < x)) →
    (qs cmp l).Sorted (· ≤ ·) ∧ (qs cmp l).Perm l

/-- A sorter driven by its comparator only: insertion sort that puts `x` before
`y` when `cmp x y ≤ 0`.  It meets the contract `IsQsort`. -/
def cmpSort (cmp : Int → Int → Int) (l : List Int) : List Int :=
  List.insertionSort (fun x y => cmp x y ≤ 0) l

/-- The subtraction of `compare_int` does not overflow on `data`: the exact
difference of any two of its values is a C `int`. -/
def InRange (data : List Int) : Prop :=
  ∀ x, x ∈ data → ∀ y, y ∈ data → INT_MIN ≤ x - y ∧ x - y ≤ INT_MAX

/-- An array of 50 C `int`s on which `compare_int` overflows: `INT_MAX`, `-1`,
then `0, 1, ..., 47`. -/
def overflowData : List Int := 2147483647 :: -1 :: (List.range 48).map (fun i => (i : Int))

/-! ## Reference merge of the specification -/

/-- Reference two-pointer merge in the words of the specification (section
4.2): compare the two heads, emit the smaller, and on a tie take the head of
`a` first; when one input is exhausted emit the rest of the other. -/
def mergeSpec (a b : List Int) : List Int := List.merge a b (fun x y => decide (x ≤ y))

/-! ## Sample inputs -/

/-- A sample stream of `rand()` values. -/
def sampleRand (i : Nat) : Nat := (i * 7919 + 13) % 1000

/-- A sample array of 50 ints, some of them negative. -/
def sampleData : List Int := (List.range 50).map (fun i => 25 - ((i : Int) * 17 % 41))

/-- Insertion sort, a sample implementation of the local sorter. -/
def sampleSort (l : List Int) : List Int := List.insertionSort (· ≤ ·) l

/-! ## Closed forms used in the proofs -/

/-- Closed form of `counts[r]`. -/
def cnt (n w r : Nat) : Nat := n / w + (if r < n % w then 1 else 0)

/-- Closed form of `displs[r]` (and of `off` after `r` iterations). -/
def dsp (n w r : Nat) : Nat := r * (n / w) + min r (n % w)

/-- State of the partition loop after its first `k` iterations. -/
def partIter (n size k : Nat) : PartState :=
  (List.range k).foldl (partBody (n / size) (n % size))
    { counts := List.replicate size 0, displs := List.replicate size 0, off := 0 }

/-- The list function computed by the loop of `merge`: take the head of the
first list only when it is strictly smaller than the head of the second. -/
def twoPointer (xs ys : List Int) : List Int := List.merge xs ys (fun x y => decide (x < y))

/-- Chunk of rank `r` in a group of `w` ranks: the `cnt` ints of `data` from
offset `dsp`. -/
def chunk (data : List Int) (w r : Nat) : List Int :=
  (data.drop (dsp data.length w r)).take (cnt data.length w r)

/-- The sorted chunks of ranks `0 .. m-1`, one after the other. -/
def headBlocks (qsort : List Int → List Int) (data : List Int) (w : Nat) : Nat → List Int
  | 0 => []
  | m + 1 => headBlocks qsort data w m ++ qsort (chunk data w m)

/-! ## Facts about the partition loop -/

theorem dsp_zero (n w : Nat) : dsp n w 0 = 0 := by simp [dsp]

theorem dsp_succ (n w r : Nat) : dsp n w (r + 1) = dsp n w r + cnt n w r := by
  unfold dsp cnt
  rw [Nat.add_mul]
  split <;> omega

theorem dsp_full (n w : Nat) (hw : 1 ≤ w) : dsp n w w = n := by
  unfold dsp
  have h1 : n % w < w := Nat.mod_lt _ (by omega)
  have h2 := Nat.div_add_mod n w
  rw [Nat.min_eq_right (by omega)]
  exact h2

theorem dsp_mono (n w : Nat) {r s : Nat} (h : r ≤ s) : dsp n w r ≤ dsp n w s := by
  induction s with
  | zero => simp at h; subst h; exact Nat.le_refl _
  | succ s ih =>
    rcases Nat.eq_or_lt_of_le h with h | h
    · subst h; exact Nat.le_refl _
    · have := ih (by omega)
      rw [dsp_succ]; omega

theorem partIter_succ (n size k : Nat) :
    partIter n size (k + 1) = partBody (n / size) (n % size) (partIter n size k) k := by
  simp [partIter, List.range_succ, List.foldl_append]

theorem partIter_inv (n w k : Nat) (hk : k ≤ w) :
    (partIter n w k).counts.length = w ∧ (partIter n w k).displs.length = w ∧
    (partIter n w k).off = dsp n w k ∧
    ∀ r, r < k → (partIter n w k).counts[r]? = some (cnt n w r) ∧
      (partIter n w k).displs[r]? = some (dsp n w r) := by
  induction k with
  | zero => simp [partIter, dsp]
  | succ k ih =>
    obtain ⟨hc, hd, ho, hr⟩ := ih (by omega)
    rw [partIter_succ]
    refine ⟨by simp [partBody, hc], by simp [partBody, hd], ?_, ?_⟩
    · simp only [partBody, List.getD_eq_getElem?_getD, List.getElem?_set, hc]
      rw [dsp_succ, ho]
      simp [show k < w by omega, cnt]
    · intro r hrk
      simp only [partBody, List.getElem?_set, hc, hd]
      by_cases hkr : k = r
      · subst hkr
        simp [show k < w by omega, cnt, ho]
      · simp only [hkr, if_false]
        exact hr r (by omega)

theorem partitionLoop_counts (n w : Nat) :
    (partitionLoop n w).counts = (List.range w).map (cnt n w) := by
  obtain ⟨hc, -, -, hr⟩ := partIter_inv n w w (Nat.le_refl _)
  apply List.ext_getElem?
  intro r
  by_cases h : r < w
  · have := (hr r h).1
    simp only [partitionLoop, partIter] at this ⊢
    rw [this]; simp [h]
  · have h1 : (partitionLoop n w).counts.length ≤ r := by
      simp only [partitionLoop, partIter] at hc ⊢; omega
    rw [List.getElem?_eq_none h1, List.getElem?_eq_none (by simpa using Nat.le_of_not_lt h)]

theorem partitionLoop_displs (n w : Nat) :
    (partitionLoop n w).displs = (List.range w).map (dsp n w) := by
  obtain ⟨-, hd, -, hr⟩ := partIter_inv n w w (Nat.le_refl _)
  apply List.ext_getElem?
  intro r
  by_cases h : r < w
  · have := (hr r h).2
    simp only [partitionLoop, partIter] at this ⊢
    rw [this]; simp [h]
  · have h1 : (partitionLoop n w).displs.length ≤ r := by
      simp only [partitionLoop, partIter] at hd ⊢; omega
    rw [List.getElem?_eq_none h1, List.getElem?_eq_none (by simpa using Nat.le_of_not_lt h)]

theorem partitionLoop_off (n w : Nat) : (partitionLoop n w).off = dsp n w w :=
  (partIter_inv n w w (Nat.le_refl _)).2.2.1

theorem sum_map_cnt (n w k : Nat) : ((List.range k).map (cnt n w)).sum = dsp n w k := by
  induction k with
  | zero => simp [dsp]
  | succ k ih => simp [List.range_succ, ih, dsp_succ]

theorem counts_getD (n w r : Nat) (h : r < w) : (partitionLoop n w).counts.getD r 0 = cnt n w r := by
  simp [partitionLoop_counts, List.getD_eq_getElem?_getD, h]

theorem displs_getD (n w r : Nat) (h : r < w) : (partitionLoop n w).displs.getD r 0 = dsp n w r := by
  simp [partitionLoop_displs, List.getD_eq_getElem?_getD, h]


theorem dsp_locate (n w i : Nat) : ∀ k, i < dsp n w k → ∃ r, r < k ∧ dsp n w r ≤ i ∧ i < dsp n w (r + 1)
  | 0, h => by simp [dsp] at h
  | k + 1, h => by
    by_cases hk : i < dsp n w k
    · obtain ⟨r, hr, h1, h2⟩ := dsp_locate n w i k hk
      exact ⟨r, by omega, h1, h2⟩
    · exact ⟨k, by omega, by omega, h⟩

theorem cnt_pos_iff (n w r : Nat) (hw : 1 ≤ w) : 0 < cnt n w r ↔ (w ≤ n ∨ r < n) := by
  unfold cnt
  by_cases h : w ≤ n
  · have : 0 < n / w := Nat.div_pos h (by omega)
    simp only [h, true_or, iff_true]; omega
  · have h1 : n / w = 0 := Nat.div_eq_of_lt (by omega)
    have h2 : n % w = n := Nat.mod_eq_of_lt (by omega)
    rw [h1, h2]
    simp only [h, false_or]
    split <;> omega

/-! ## Claims about the partition loop -/

/-- C3: for `w ≥ 1` the arrays computed by the partition loop have one slot per
rank, `displs[0] = 0`, `displs[r+1] = displs[r] + counts[r]`, the counts sum to
`n` (which is also the final `off`), every range lies inside `[0, n)` and every
index below `n` lies in exactly one range `[displs[r], displs[r] + counts[r])`. -/
theorem partition_exact_cover (n w : Nat) (hw : 1 ≤ w) :
    (partitionLoop n w).counts.length = w ∧ (partitionLoop n w).displs.length = w ∧
    (partitionLoop n w).displs[0]? = some 0 ∧
    (∀ r, r + 1 < w → (partitionLoop n w).displs.getD (r + 1) 0 =
      (partitionLoop n w).displs.getD r 0 + (partitionLoop n w).counts.getD r 0) ∧
    (partitionLoop n w).counts.sum = n ∧ (partitionLoop n w).off = n ∧
    (∀ r, r < w →
      (partitionLoop n w).displs.getD r 0 + (partitionLoop n w).counts.getD r 0 ≤ n) ∧
    (∀ i, i < n → ∃! r, r < w ∧ (partitionLoop n w).displs.getD r 0 ≤ i ∧
      i < (partitionLoop n w).displs.getD r 0 + (partitionLoop n w).counts.getD r 0) := by
  refine ⟨by simp [partitionLoop_counts], by simp [partitionLoop_displs], ?_, ?_, ?_, ?_, ?_, ?_⟩
  · simp [partitionLoop_displs, show 0 < w by omega, dsp]
  · intro r hr
    rw [displs_getD n w _ hr, displs_getD n w r (by omega), counts_getD n w r (by omega), dsp_succ]
  · rw [partitionLoop_counts, sum_map_cnt, dsp_full n w hw]
  · rw [partitionLoop_off, dsp_full n w hw]
  · intro r hr
    rw [displs_getD n w r hr, counts_getD n w r hr, ← dsp_succ]
    have h := dsp_mono n w (show r + 1 ≤ w by omega)
    rw [dsp_full n w hw] at h
    exact h
  · intro i hi
    obtain ⟨r, hr, h1, h2⟩ := dsp_locate n w i w (by rw [dsp_full n w hw]; exact hi)
    refine ⟨r, ⟨hr, ?_, ?_⟩, ?_⟩
    · rw [displs_getD n w r hr]; exact h1
    · rw [displs_getD n w r hr, counts_getD n w r hr, ← dsp_succ]; exact h2
    · rintro s ⟨hs, h3, h4⟩
      rw [displs_getD n w s hs] at h3 h4
      rw [counts_getD n w s hs, ← dsp_succ] at h4
      rcases Nat.lt_trichotomy s r with h | h | h
      · have := dsp_mono n w (show s + 1 ≤ r by omega); omega
      · exact h
      · have := dsp_mono n w (show r + 1 ≤ s by omega); omega

/-- Witness for C3 at the program's own `n = 50`, `w = 6`: the offsets of ranks
2 and 3, the range of rank 5, and the owner of index 20. -/
theorem partition_exact_cover_witness :
    (partitionLoop 50 6).displs[0]? = some 0 ∧
    (partitionLoop 50 6).displs.getD (2 + 1) 0 =
      (partitionLoop 50 6).displs.getD 2 0 + (partitionLoop 50 6).counts.getD 2 0 ∧
    (partitionLoop 50 6).counts.sum = 50 ∧
    (partitionLoop 50 6).displs.getD 5 0 + (partitionLoop 50 6).counts.getD 5 0 ≤ 50 ∧
    (∃! r, r < 6 ∧ (partitionLoop 50 6).displs.getD r 0 ≤ 20 ∧
      20 < (partitionLoop 50 6).displs.getD r 0 + (partitionLoop 50 6).counts.getD r 0) :=
  ⟨(partition_exact_cover 50 6 (by decide)).2.2.1,
    (partition_exact_cover 50 6 (by decide)).2.2.2.1 2 (by decide),
    (partition_exact_cover 50 6 (by decide)).2.2.2.2.1,
    (partition_exact_cover 50 6 (by decide)).2.2.2.2.2.2.1 5 (by decide),
    (partition_exact_cover 50 6 (by decide)).2.2.2.2.2.2.2 20 (by decide)⟩

/-- C4: for every `n` and every `w` (a rank `r < w` exists only when `w ≥ 1`),
rank `r` gets `n / w + 1` elements when `r < n % w` and `n / w` otherwise; two
counts differ by at most one and the counts never increase with the rank. -/
theorem partition_counts_balanced (n w : Nat) :
    (∀ r, r < w → (partitionLoop n w).counts[r]? =
      some (if r < n % w then n / w + 1 else n / w)) ∧
    (∀ r s, r < w → s < w →
      (partitionLoop n w).counts.getD r 0 ≤ (partitionLoop n w).counts.getD s 0 + 1) ∧
    (∀ r s, r ≤ s → s < w →
      (partitionLoop n w).counts.getD s 0 ≤ (partitionLoop n w).counts.getD r 0) := by
  refine ⟨?_, ?_, ?_⟩
  · intro r hr
    simp only [partitionLoop_counts, List.getElem?_map, List.getElem?_range hr, Option.map_some',
      cnt]
    split <;> rfl
  · intro r s hr hs
    rw [counts_getD n w r hr, counts_getD n w s hs]
    simp only [cnt]
    by_cases h1 : r < n % w <;> by_cases h2 : s < n % w <;> simp only [h1, h2, if_true, if_false] <;>
      omega
  · intro r s hrs hs
    rw [counts_getD n w r (Nat.lt_of_le_of_lt hrs hs), counts_getD n w s hs]
    simp only [cnt]
    by_cases h1 : r < n % w <;> by_cases h2 : s < n % w <;> simp only [h1, h2, if_true, if_false] <;>
      omega

/-- Witness for C4 at `n = 50`, `w = 6`, ranks 1 and 4. -/
theorem partition_counts_balanced_witness :
    (partitionLoop 50 6).counts[1]? = some (if 1 < 50 % 6 then 50 / 6 + 1 else 50 / 6) ∧
    (partitionLoop 50 6).counts.getD 1 0 ≤ (partitionLoop 50 6).counts.getD 4 0 + 1 ∧
    (partitionLoop 50 6).counts.getD 4 0 ≤ (partitionLoop 50 6).counts.getD 1 0 :=
  ⟨(partition_counts_balanced 50 6).1 1 (by decide),
    (partition_counts_balanced 50 6).2.1 1 4 (by decide) (by decide),
    (partition_counts_balanced 50 6).2.2 1 4 (by decide) (by decide)⟩

/-- C7: with 50 elements and 6 ranks the loop yields `counts = [9,9,8,8,8,8]`
and `displs = [0,9,18,26,34,42]`; the ranks holding 9 elements are exactly
ranks 0 and 1. -/
theorem partition_50_6 :
    (partitionLoop NUM_ELEMENTS 6).counts = [9, 9, 8, 8, 8, 8] ∧
    (partitionLoop NUM_ELEMENTS 6).displs = [0, 9, 18, 26, 34, 42] ∧
    (∀ r, r < 6 → ((partitionLoop NUM_ELEMENTS 6).counts.getD r 0 = 8 + 1 ↔ r < 2)) := by
  decide

/-- C9 fails as stated: with `n = 0` and `w = 2` both offsets are 0, and with
`n = 1`, `w = 3` the offsets are `[0, 1, 1]`. -/
theorem displs_not_strict_counterexample :
    ¬ ((partitionLoop 0 2).displs.getD 0 0 < (partitionLoop 0 2).displs.getD (0 + 1) 0) ∧
    (partitionLoop 1 3).displs = [0, 1, 1] := by
  decide

/-- C9 as amended: consecutive offsets never decrease, and
`displs[r] < displs[r+1]` holds exactly when rank `r` owns at least one
element, that is when `w ≤ n` or `r < n`. -/
theorem displs_increasing (n w r : Nat) (hw : 1 ≤ w) (hr : r + 1 < w) :
    (partitionLoop n w).displs.getD r 0 ≤ (partitionLoop n w).displs.getD (r + 1) 0 ∧
    ((partitionLoop n w).displs.getD r 0 < (partitionLoop n w).displs.getD (r + 1) 0 ↔
      (w ≤ n ∨ r < n)) := by
  rw [displs_getD n w _ hr, displs_getD n w r (by omega), dsp_succ, ← cnt_pos_iff n w r hw]
  omega

/-- Witness for the amended C9 at `n = 50`, `w = 6`, `r = 4`. -/
theorem displs_increasing_witness :
    (partitionLoop 50 6).displs.getD 4 0 ≤ (partitionLoop 50 6).displs.getD (4 + 1) 0 ∧
    ((partitionLoop 50 6).displs.getD 4 0 < (partitionLoop 50 6).displs.getD (4 + 1) 0 ↔
      (6 ≤ 50 ∨ 4 < 50)) :=
  displs_increasing 50 6 4 (by decide) (by decide)


/-! ## Facts about `merge` -/

theorem twoPointer_perm (xs ys : List Int) : (twoPointer xs ys).Perm (xs ++ ys) :=
  List.merge_perm_append _

theorem twoPointer_length (xs ys : List Int) : (twoPointer xs ys).length = xs.length + ys.length :=
  List.length_merge _ _ _

theorem twoPointer_cons_cons (x y : Int) (xs ys : List Int) :
    twoPointer (x :: xs) (y :: ys) =
      if x < y then x :: twoPointer xs (y :: ys) else y :: twoPointer (x :: xs) ys := by
  simp [twoPointer, List.cons_merge_cons]

theorem twoPointer_nil_left (ys : List Int) : twoPointer [] ys = ys := by
  simp [twoPointer]

theorem twoPointer_nil_right (xs : List Int) : twoPointer xs [] = xs := by
  simp [twoPointer]

theorem twoPointer_sorted : ∀ (xs ys : List Int), xs.Sorted (· ≤ ·) → ys.Sorted (· ≤ ·) →
    (twoPointer xs ys).Sorted (· ≤ ·)
  | [], ys, _, hy => by rw [twoPointer_nil_left]; exact hy
  | x :: xs, [], hx, _ => by rw [twoPointer_nil_right]; exact hx
  | x :: xs, y :: ys, hx, hy => by
    rw [twoPointer_cons_cons]
    have hx' := List.sorted_cons.mp hx
    have hy' := List.sorted_cons.mp hy
    by_cases hlt : x < y
    · rw [if_pos hlt]
      refine List.sorted_cons.mpr ⟨?_, twoPointer_sorted xs (y :: ys) hx'.2 hy⟩
      intro z hz
      rcases List.mem_append.mp ((twoPointer_perm xs (y :: ys)).subset hz) with h | h
      · exact hx'.1 z h
      · rcases List.mem_cons.mp h with h | h
        · subst h; exact Int.le_of_lt hlt
        · exact Int.le_trans (Int.le_of_lt hlt) (hy'.1 z h)
    · rw [if_neg hlt]
      have hyx : y ≤ x := Int.not_lt.mp hlt
      refine List.sorted_cons.mpr ⟨?_, twoPointer_sorted (x :: xs) ys hx hy'.2⟩
      intro z hz
      rcases List.mem_append.mp ((twoPointer_perm (x :: xs) ys).subset hz) with h | h
      · rcases List.mem_cons.mp h with h | h
        · subst h; exact hyx
        · exact Int.le_trans hyx (hx'.1 z h)
      · exact hy'.1 z h
termination_by xs ys => xs.length + ys.length

theorem take_set_succ : ∀ (l : List Int) (k : Nat) (x : Int), k < l.length →
    (l.set k x).take (k + 1) = l.take k ++ [x]
  | [], _, _, h => by simp at h
  | _ :: _, 0, _, _ => by simp
  | _ :: l, k + 1, x, h => by
    have := take_set_succ l k x (by simpa using h)
    simp [this]

theorem mergeIter_succ (a : List Int) (numel_a : Nat) (b : List Int) (numel_b k : Nat) :
    mergeIter a numel_a b numel_b (k + 1) =
      (mergeIter a numel_a b numel_b k).bind (fun s => mergeBody a numel_a b numel_b s k) := by
  simp only [mergeIter, List.range_succ, List.foldlM_append, List.foldlM_cons, List.foldlM_nil]
  cases List.foldlM (mergeBody a numel_a b numel_b)
    { sorted := List.replicate (numel_a + numel_b) 0, a_i := 0, b_i := 0 } (List.range k) with
  | none => rfl
  | some s =>
    show (mergeBody a numel_a b numel_b s k >>= fun init => pure init) =
      mergeBody a numel_a b numel_b s k
    exact bind_pure _

theorem drop_take_cons (l : List Int) (n i : Nat) (hn : n ≤ l.length) (hi : i < n) :
    ∃ x, l[i]? = some x ∧ (l.take n).drop i = x :: (l.take n).drop (i + 1) := by
  have h : i < (l.take n).length := by rw [List.length_take]; omega
  refine ⟨l[i], List.getElem?_eq_getElem _, ?_⟩
  rw [List.drop_eq_getElem_cons h, List.getElem_take]

theorem drop_take_nil (l : List Int) (n i : Nat) (hi : n ≤ i) : (l.take n).drop i = [] := by
  apply List.drop_eq_nil_of_le
  rw [List.length_take]; omega

/-- Loop invariant of `merge`: after `k` iterations the loop has not failed,
`a_i + b_i = k`, both positions are within their inputs, and the first `k`
slots of `sorted` followed by the two-pointer merge of what is left are the
two-pointer merge of the inputs. -/
theorem mergeIter_inv (a : List Int) (numel_a : Nat) (b : List Int) (numel_b : Nat)
    (ha : numel_a ≤ a.length) (hb : numel_b ≤ b.length) :
    ∀ k, k ≤ numel_a + numel_b → ∃ s, mergeIter a numel_a b numel_b k = some s ∧
      s.a_i ≤ numel_a ∧ s.b_i ≤ numel_b ∧ s.a_i + s.b_i = k ∧
      s.sorted.length = numel_a + numel_b ∧
      s.sorted.take k ++ twoPointer ((a.take numel_a).drop s.a_i) ((b.take numel_b).drop s.b_i) =
        twoPointer (a.take numel_a) (b.take numel_b)
  | 0, _ => ⟨_, rfl, by simp, by simp, by simp, by simp, by simp⟩
  | k + 1, hk => by
    obtain ⟨s, hs, h1, h2, h3, h4, h5⟩ := mergeIter_inv a numel_a b numel_b ha hb k (by omega)
    rw [mergeIter_succ, hs]
    simp only [Option.bind]
    have hset : ∀ x, (s.sorted.set k x).take (k + 1) = s.sorted.take k ++ [x] :=
      fun x => take_set_succ _ _ _ (by omega)
    by_cases hA : s.a_i < numel_a
    · obtain ⟨x, hx, hxd⟩ := drop_take_cons a numel_a s.a_i ha hA
      by_cases hB : s.b_i < numel_b
      · obtain ⟨y, hy, hyd⟩ := drop_take_cons b numel_b s.b_i hb hB
        rw [hxd, hyd, twoPointer_cons_cons] at h5
        simp only [mergeBody, hA, hB, and_self, if_true, hx, hy]
        by_cases hlt : x < y
        · rw [if_pos hlt] at h5 ⊢
          refine ⟨_, rfl, by simp; omega, by simp; omega, by simp; omega, by simp [h4], ?_⟩
          simp only [hset, hyd]
          rw [← h5]; simp
        · rw [if_neg hlt] at h5 ⊢
          refine ⟨_, rfl, by simp; omega, by simp; omega, by simp; omega, by simp [h4], ?_⟩
          simp only [hset, hxd]
          rw [← h5]; simp
      · rw [hxd, drop_take_nil b numel_b s.b_i (by omega), twoPointer_nil_right] at h5
        simp only [mergeBody, hA, hB, and_false, if_false, if_true, hx]
        refine ⟨_, rfl, by simp; omega, by simp; omega, by simp; omega, by simp [h4], ?_⟩
        simp only [hset]
        rw [drop_take_nil b numel_b s.b_i (by omega), twoPointer_nil_right, ← h5]; simp
    · have hB : s.b_i < numel_b := by omega
      obtain ⟨y, hy, hyd⟩ := drop_take_cons b numel_b s.b_i hb hB
      rw [hyd, drop_take_nil a numel_a s.a_i (by omega), twoPointer_nil_left] at h5
      simp only [mergeBody, hA, false_and, if_false, hy]
      refine ⟨_, rfl, by simp; omega, by simp; omega, by simp; omega, by simp [h4], ?_⟩
      simp only [hset]
      rw [drop_take_nil a numel_a s.a_i (by omega), twoPointer_nil_left, ← h5]; simp

/-- What `merge` computes: the two-pointer merge of the first `numel_a` slots of
`a` and the first `numel_b` slots of `b`, followed by the untouched rest of `a`. -/
theorem merge_eq (a : List Int) (numel_a : Nat) (b : List Int) (numel_b : Nat)
    (ha : numel_a + numel_b ≤ a.length) (hb : numel_b ≤ b.length) :
    merge a numel_a b numel_b =
      some (twoPointer (a.take numel_a) (b.take numel_b) ++ a.drop (numel_a + numel_b)) := by
  obtain ⟨s, hs, h1, h2, h3, h4, h5⟩ :=
    mergeIter_inv a numel_a b numel_b (by omega) hb (numel_a + numel_b) (Nat.le_refl _)
  have e1 : s.a_i = numel_a := by omega
  have e2 : s.b_i = numel_b := by omega
  rw [e1, e2, drop_take_nil a numel_a numel_a (Nat.le_refl _), twoPointer_nil_left,
    drop_take_nil b numel_b numel_b (Nat.le_refl _), List.append_nil] at h5
  simp only [merge, hs, memcpy, h4, ha, Nat.le_refl, and_self, if_true, h5]


/-! ## Claims about `merge` -/

/-- C1: when the first `numel_a` slots of `a` and the first `numel_b` slots of
`b` are ascending (and both buffers are large enough), `merge` returns and
leaves an ascending sequence in the first `numel_a + numel_b` slots of `a`. -/
theorem merge_ascending (a : List Int) (numel_a : Nat) (b : List Int) (numel_b : Nat)
    (ha : numel_a + numel_b ≤ a.length) (hb : numel_b ≤ b.length)
    (hsa : (a.take numel_a).Sorted (· ≤ ·)) (hsb : (b.take numel_b).Sorted (· ≤ ·)) :
    ∃ out, merge a numel_a b numel_b = some out ∧
      (out.take (numel_a + numel_b)).Sorted (· ≤ ·) := by
  refine ⟨_, merge_eq a numel_a b numel_b ha hb, ?_⟩
  rw [List.take_left' (by rw [twoPointer_length, List.length_take, List.length_take]; omega)]
  exact twoPointer_sorted _ _ hsa hsb

/-- Witness for C1: `a = [1,3,5]` followed by three free slots, `b = [2,3,4]`. -/
theorem merge_ascending_witness :
    ∃ out, merge [1, 3, 5, 0, 0, 0] 3 [2, 3, 4] 3 = some out ∧
      (out.take (3 + 3)).Sorted (· ≤ ·) :=
  merge_ascending [1, 3, 5, 0, 0, 0] 3 [2, 3, 4] 3 (by decide) (by decide) (by decide) (by decide)

/-- C2: for inputs of `numel_a` and `numel_b` ints (ascending or not, both
buffers large enough) `merge` returns, and the first `numel_a + numel_b` slots
of the result have that length, are a permutation of the two inputs put
together, and hold every value as often as the two inputs together; the rest of
`a` is unchanged. -/
theorem merge_permutation (a : List Int) (numel_a : Nat) (b : List Int) (numel_b : Nat)
    (ha : numel_a + numel_b ≤ a.length) (hb : numel_b ≤ b.length) :
    ∃ out, merge a numel_a b numel_b = some out ∧
      (out.take (numel_a + numel_b)).length = numel_a + numel_b ∧
      (out.take (numel_a + numel_b)).Perm (a.take numel_a ++ b.take numel_b) ∧
      (∀ v, (out.take (numel_a + numel_b)).count v =
        (a.take numel_a).count v + (b.take numel_b).count v) ∧
      out.drop (numel_a + numel_b) = a.drop (numel_a + numel_b) := by
  have hlen : (twoPointer (a.take numel_a) (b.take numel_b)).length = numel_a + numel_b := by
    rw [twoPointer_length, List.length_take, List.length_take]; omega
  refine ⟨_, merge_eq a numel_a b numel_b ha hb, ?_, ?_, ?_, ?_⟩
  · rw [List.take_left' hlen]; exact hlen
  · rw [List.take_left' hlen]; exact twoPointer_perm _ _
  · intro v
    rw [List.take_left' hlen, (twoPointer_perm _ _).count_eq, List.count_append]
  · rw [List.drop_left' hlen]

/-- Witness for C2: the call of the two-rank driver shape, `b` being the tail
of `a`. -/
theorem merge_permutation_witness :
    ∃ out, merge [2, 2, 7, 1, 2, 9, 4] 3 [1, 2, 9, 4] 3 = some out ∧
      (out.take (3 + 3)).length = 3 + 3 ∧
      (out.take (3 + 3)).Perm (List.take 3 [2, 2, 7, 1, 2, 9, 4] ++ List.take 3 [1, 2, 9, 4]) ∧
      (∀ v, (out.take (3 + 3)).count v =
        (List.take 3 [2, 2, 7, 1, 2, 9, 4]).count v + (List.take 3 [1, 2, 9, 4]).count v) ∧
      out.drop (3 + 3) = List.drop (3 + 3) [2, 2, 7, 1, 2, 9, 4] :=
  merge_permutation [2, 2, 7, 1, 2, 9, 4] 3 [1, 2, 9, 4] 3 (by decide) (by decide)

/-- C8 fails as stated: with both heads equal to 1 the step advances `b_i` and
leaves `a_i` where it was. -/
theorem merge_tie_counterexample :
    mergeBody [1] 1 [1] 1 { sorted := [0, 0], a_i := 0, b_i := 0 } 0 =
      some { sorted := [1, 0], a_i := 0, b_i := 1 } ∧
    ¬ (∃ s, mergeBody [1] 1 [1] 1 { sorted := [0, 0], a_i := 0, b_i := 0 } 0 = some s ∧
        s.a_i = 0 + 1) := by
  decide

/-- C8 as amended: while both inputs have unconsumed elements, the step takes
the head of `a` (advancing `a_i`) exactly when it is strictly smaller than the
head of `b`; on a tie it takes the head of `b` and advances `b_i`. -/
theorem merge_tie_takes_b (a : List Int) (numel_a : Nat) (b : List Int) (numel_b : Nat)
    (s : MergeState) (i : Nat) (x y : Int) (hA : s.a_i < numel_a) (hB : s.b_i < numel_b)
    (hx : a[s.a_i]? = some x) (hy : b[s.b_i]? = some y) :
    (x = y → mergeBody a numel_a b numel_b s i =
      some { sorted := s.sorted.set i y, a_i := s.a_i, b_i := s.b_i + 1 }) ∧
    (x < y → mergeBody a numel_a b numel_b s i =
      some { sorted := s.sorted.set i x, a_i := s.a_i + 1, b_i := s.b_i }) ∧
    (y < x → mergeBody a numel_a b numel_b s i =
      some { sorted := s.sorted.set i y, a_i := s.a_i, b_i := s.b_i + 1 }) := by
  refine ⟨?_, ?_, ?_⟩
  · intro h
    have : ¬ x < y := by omega
    simp [mergeBody, hA, hB, hx, hy, this]
  · intro h
    simp [mergeBody, hA, hB, hx, hy, h]
  · intro h
    have : ¬ x < y := by omega
    simp [mergeBody, hA, hB, hx, hy, this]

/-- Witness for the amended C8: heads `3` and `3` in the middle of a merge (the
head of `b` is taken), and heads `1` and `3` at its start (the head of `a` is
taken). -/
theorem merge_tie_takes_b_witness :
    mergeBody [1, 3] 2 [3, 4] 2 { sorted := [1, 0, 0, 0], a_i := 1, b_i := 0 } 1 =
      some { sorted := ([1, 0, 0, 0] : List Int).set 1 3, a_i := 1, b_i := 0 + 1 } ∧
    mergeBody [1, 3] 2 [3, 4] 2 { sorted := [0, 0, 0, 0], a_i := 0, b_i := 0 } 0 =
      some { sorted := ([0, 0, 0, 0] : List Int).set 0 1, a_i := 0 + 1, b_i := 0 } :=
  ⟨(merge_tie_takes_b [1, 3] 2 [3, 4] 2 { sorted := [1, 0, 0, 0], a_i := 1, b_i := 0 } 1 3 3
      (by decide) (by decide) (by decide) (by decide)).1 rfl,
    (merge_tie_takes_b [1, 3] 2 [3, 4] 2 { sorted := [0, 0, 0, 0], a_i := 0, b_i := 0 } 0 1 3
      (by decide) (by decide) (by decide) (by decide)).2.1 (by decide)⟩

/-! ## Facts about the six-rank pipeline -/

theorem dsp_succ_le (n w r : Nat) (hr : r < w) : dsp n w r + cnt n w r ≤ n := by
  have h := dsp_mono n w (show r + 1 ≤ w by omega)
  rw [dsp_full n w (by omega), dsp_succ] at h
  exact h

theorem chunk_length (data : List Int) (w r : Nat) (hr : r < w) :
    (chunk data w r).length = cnt data.length w r := by
  have := dsp_succ_le data.length w r hr
  simp only [chunk, List.length_take, List.length_drop]
  omega

theorem sorted_chunk_length (qsort : List Int → List Int) (hq : IsAscendingSort qsort)
    (data : List Int) (w r : Nat) (hr : r < w) :
    (qsort (chunk data w r)).length = cnt data.length w r := by
  rw [(hq _).2.length_eq, chunk_length data w r hr]

theorem headBlocks_length (qsort : List Int → List Int) (hq : IsAscendingSort qsort)
    (data : List Int) (w : Nat) : ∀ m, m ≤ w →
    (headBlocks qsort data w m).length = dsp data.length w m
  | 0, _ => by simp [headBlocks, dsp]
  | m + 1, h => by
    rw [headBlocks, List.length_append, headBlocks_length qsort hq data w m (by omega),
      sorted_chunk_length qsort hq data w m (by omega), dsp_succ]

theorem headBlocks_perm (qsort : List Int → List Int) (hq : IsAscendingSort qsort)
    (data : List Int) (w : Nat) : ∀ m, m ≤ w →
    (headBlocks qsort data w m).Perm (data.take (dsp data.length w m))
  | 0, _ => by simp [headBlocks, dsp]
  | m + 1, h => by
    rw [headBlocks, dsp_succ, List.take_add]
    exact (headBlocks_perm qsort hq data w m (by omega)).append (hq _).2

theorem headBlocks_full (qsort : List Int → List Int) (hq : IsAscendingSort qsort)
    (data : List Int) (w : Nat) (hw : 1 ≤ w) :
    (headBlocks qsort data w w).Perm data := by
  have h := headBlocks_perm qsort hq data w w (Nat.le_refl _)
  rw [dsp_full _ w hw, List.take_length] at h
  exact h

/-- Every later block starts, in the full sequence of sorted chunks, at its
planned offset. -/
theorem headBlocks_drop (qsort : List Int → List Int) (hq : IsAscendingSort qsort)
    (data : List Int) (w r : Nat) : ∀ m, r < m → m ≤ w →
    (headBlocks qsort data w m).drop (dsp data.length w r) =
      qsort (chunk data w r) ++ (headBlocks qsort data w m).drop (dsp data.length w (r + 1))
  | 0, h, _ => by omega
  | m + 1, h, hm => by
    have hlen := headBlocks_length qsort hq data w m (by omega)
    rw [headBlocks]
    rcases Nat.eq_or_lt_of_le (Nat.le_of_lt_succ h) with e | hlt
    · subst e
      rw [List.drop_left' hlen, List.drop_eq_nil_of_le, List.append_nil]
      rw [List.length_append, hlen, sorted_chunk_length qsort hq data w r (by omega), dsp_succ]
    · have ih := headBlocks_drop qsort hq data w r m hlt (by omega)
      have h1 : dsp data.length w (r + 1) ≤ dsp data.length w m := dsp_mono _ _ (by omega)
      have h0 : dsp data.length w r ≤ dsp data.length w m := dsp_mono _ _ (by omega)
      rw [List.drop_append_of_le_length (by omega), ih,
        List.drop_append_of_le_length (by omega), List.append_assoc]

theorem sendChunk_eq (data : List Int) (w r : Nat) (hr : r < w) :
    sendChunk (partitionLoop data.length w) data r = some (chunk data w r) := by
  have := dsp_succ_le data.length w r hr
  simp only [sendChunk, MPI_Send, displs_getD _ w r hr, counts_getD _ w r hr, List.length_drop,
    chunk]
  rw [if_pos (by omega)]

theorem workerReplies_eq (qsort : List Int → List Int) (hq : IsAscendingSort qsort)
    (data : List Int) (w r : Nat) (hr : r < w) :
    workerReplies qsort (partitionLoop data.length w) data r = some (qsort (chunk data w r)) := by
  have hc := chunk_length data w r hr
  have hs := sorted_chunk_length qsort hq data w r hr
  simp only [workerReplies, workerBranch, sendChunk_eq data w r hr, counts_getD _ w r hr,
    Option.bind_eq_bind, Option.some_bind, MPI_Recv, malloc, hc, List.length_replicate,
    Nat.le_refl, and_self, if_true, List.drop_replicate, Nat.sub_self, List.replicate_zero,
    List.append_nil, MPI_Send, hs]
  rw [← hs, List.take_length]

theorem ownChunk_eq (qsort : List Int → List Int) (hq : IsAscendingSort qsort)
    (data : List Int) (w : Nat) (hw : 1 ≤ w) :
    ownChunk qsort (partitionLoop data.length w) data =
      some (headBlocks qsort data w 1 ++ data.drop (dsp data.length w 1)) := by
  have h0 : 0 < w := by omega
  have hle := dsp_succ_le data.length w 0 h0
  have hc := chunk_length data w 0 h0
  have hs := sorted_chunk_length qsort hq data w 0 h0
  have hd : dsp data.length w 0 = 0 := dsp_zero _ _
  have hd1 : dsp data.length w 1 = cnt data.length w 0 := by rw [dsp_succ, hd, Nat.zero_add]
  rw [hd] at hle
  have e1 : memcpy (malloc (cnt data.length w 0)) data (cnt data.length w 0) =
      some (chunk data w 0) := by
    simp only [memcpy, malloc, List.length_replicate, Nat.le_refl, true_and, chunk, hd,
      List.drop_zero, List.drop_replicate, Nat.sub_self, List.replicate_zero, List.append_nil]
    rw [if_pos (by omega)]
  have e2 : memcpy data (qsort (chunk data w 0)) (cnt data.length w 0) =
      some (qsort (chunk data w 0) ++ data.drop (cnt data.length w 0)) := by
    simp only [memcpy, hs, Nat.le_refl, and_true]
    rw [if_pos (by omega), ← hs, List.take_length]
  simp only [ownChunk, displs_getD _ w 0 h0, counts_getD _ w 0 h0, hd, List.drop_zero, e1,
    Option.bind_eq_bind, Option.some_bind, e2, Option.pure_def, storeAt, List.take_zero,
    List.nil_append, headBlocks, hd1]

theorem recvIter_succ (qsort : List Int → List Int) (p : PartState)
    (inbox : Nat → Option (List Int)) (data : List Int) (k : Nat) :
    recvIter qsort p inbox data (k + 1) =
      (recvIter qsort p inbox data k).bind (fun d => recvBody p inbox d (1 + k)) := by
  simp only [recvIter, List.range'_concat, Nat.one_mul, List.foldlM_append, List.foldlM_cons,
    List.foldlM_nil, Option.bind_eq_bind]
  cases ownChunk qsort p data with
  | none => rfl
  | some d =>
    simp only [Option.some_bind]
    cases List.foldlM (recvBody p inbox) d (List.range' 1 k) with
    | none => rfl
    | some e =>
      simp only [Option.some_bind]
      show _ = recvBody p inbox e (1 + k)
      cases recvBody p inbox e (1 + k) <;> rfl

/-- Invariant of the receive loop in a run of the group: after `k` iterations
the array starts with the sorted chunks of ranks `0 .. k` and continues with
the original contents. -/
theorem recvIter_inv (qsort : List Int → List Int) (hq : IsAscendingSort qsort)
    (data : List Int) (w : Nat) (hw : 1 ≤ w) : ∀ k, k + 1 ≤ w →
    recvIter qsort (partitionLoop data.length w)
        (workerReplies qsort (partitionLoop data.length w) data) data k =
      some (headBlocks qsort data w (k + 1) ++ data.drop (dsp data.length w (k + 1)))
  | 0, _ => by
    simp only [recvIter, List.range'_zero, List.foldlM_nil, ownChunk_eq qsort hq data w hw,
      Option.bind_eq_bind, Option.some_bind, Option.pure_def]
  | k + 1, h => by
    have hr : 1 + k < w := by omega
    have hlen := headBlocks_length qsort hq data w (k + 1) (by omega)
    have hs := sorted_chunk_length qsort hq data w (1 + k) hr
    have hle := dsp_succ_le data.length w (1 + k) hr
    rw [recvIter_succ, recvIter_inv qsort hq data w hw k (by omega)]
    simp only [Option.some_bind, recvBody, workerReplies_eq qsort hq data w (1 + k) hr,
      Option.bind_eq_bind, displs_getD _ w (1 + k) hr, counts_getD _ w (1 + k) hr]
    rw [Nat.add_comm 1 k] at hs hle ⊢
    rw [List.drop_left' hlen]
    simp only [MPI_Recv, hs, Nat.le_refl, true_and, List.length_drop]
    rw [if_pos (by omega)]
    simp only [Option.some_bind, Option.pure_def, storeAt]
    rw [List.take_left' hlen]
    simp only [headBlocks, List.drop_drop, dsp_succ _ _ (k + 1), List.append_assoc]

theorem collected_eq (qsort : List Int → List Int) (hq : IsAscendingSort qsort)
    (data : List Int) (w : Nat) (hw : 1 ≤ w) :
    recvIter qsort (partitionLoop data.length w)
        (workerReplies qsort (partitionLoop data.length w) data) data (w - 1) =
      some (headBlocks qsort data w w) := by
  rw [recvIter_inv qsort hq data w hw (w - 1) (by omega), Nat.sub_add_cancel hw,
    dsp_full _ w hw, List.drop_length, List.append_nil]

theorem foldIter_succ (p : PartState) (data : List Int) (k : Nat) :
    foldIter p data (k + 1) = (foldIter p data k).bind (fun s => foldBody p s (1 + k)) := by
  simp only [foldIter, List.range'_concat, Nat.one_mul, List.foldlM_append, List.foldlM_cons,
    List.foldlM_nil, Option.bind_eq_bind]
  cases List.foldlM (foldBody p) { data := data, merged_n := p.counts.getD 0 0 }
    (List.range' 1 k) with
  | none => rfl
  | some e =>
    simp only [Option.some_bind]
    show _ = foldBody p e (1 + k)
    cases foldBody p e (1 + k) <;> rfl

/-- Invariant of the merge loop on the collected array: after `k` iterations
`merged_n` is the offset of rank `k + 1`, the first `merged_n` slots are
ascending and a permutation of the sorted chunks of ranks `0 .. k`, and the
rest of the array still holds the sorted chunks of the later ranks. -/
theorem foldIter_inv (qsort : List Int → List Int) (hq : IsAscendingSort qsort)
    (data : List Int) (w : Nat) (hw : 1 ≤ w) : ∀ k, k + 1 ≤ w →
    ∃ M, foldIter (partitionLoop data.length w) (headBlocks qsort data w w) k =
        some { data := M ++ (headBlocks qsort data w w).drop (dsp data.length w (k + 1)),
               merged_n := dsp data.length w (k + 1) } ∧
      M.length = dsp data.length w (k + 1) ∧ M.Sorted (· ≤ ·) ∧
      M.Perm (headBlocks qsort data w (k + 1))
  | 0, _ => by
    have h0 : 0 < w := by omega
    have hd := headBlocks_drop qsort hq data w 0 w h0 (Nat.le_refl _)
    rw [dsp_zero, List.drop_zero] at hd
    refine ⟨qsort (chunk data w 0), ?_, ?_, (hq _).1, ?_⟩
    · simp only [foldIter, List.range'_zero, List.foldlM_nil, Option.pure_def,
        counts_getD _ w 0 h0]
      rw [← hd, dsp_succ, dsp_zero, Nat.zero_add]
    · rw [sorted_chunk_length qsort hq data w 0 h0, dsp_succ, dsp_zero, Nat.zero_add]
    · simp [headBlocks]
  | k + 1, h => by
    obtain ⟨M, hM, hlen, hsorted, hperm⟩ := foldIter_inv qsort hq data w hw k (by omega)
    have hr : k + 1 < w := by omega
    have hd := headBlocks_drop qsort hq data w (k + 1) w hr (Nat.le_refl _)
    have hs := sorted_chunk_length qsort hq data w (k + 1) hr
    refine ⟨twoPointer M (qsort (chunk data w (k + 1))), ?_, ?_, ?_, ?_⟩
    · rw [foldIter_succ, hM, Nat.add_comm 1 k]
      simp only [Option.some_bind, foldBody, displs_getD _ w (k + 1) hr,
        counts_getD _ w (k + 1) hr]
      rw [List.drop_left' hlen, hd]
      rw [merge_eq _ _ _ _ (by simp only [List.length_append, hlen, hs]; omega)
        (by simp only [List.length_append, hs]; omega)]
      rw [List.take_left' hlen, List.take_left' hs, ← List.drop_drop,
        List.drop_left' hlen, List.drop_left' hs]
      simp only [Option.bind_eq_bind, Option.some_bind, Option.pure_def,
        dsp_succ _ _ (k + 1)]
    · rw [twoPointer_length, hlen, hs, dsp_succ _ _ (k + 1)]
    · exact twoPointer_sorted _ _ hsorted (hq _).1
    · rw [headBlocks]
      exact (twoPointer_perm _ _).trans (hperm.append_right _)

theorem sends_possible (data : List Int) (w : Nat) :
    (List.range' 1 (w - 1)).all
      (fun r => (sendChunk (partitionLoop data.length w) data r).isSome) = true := by
  rw [List.all_eq_true]
  intro r hr
  rw [List.mem_range'_1] at hr
  rw [sendChunk_eq data w r (by omega)]
  rfl

/-- The whole group, for any array and any number of ranks `w ≥ 1`: rank 0 ends
with an ascending permutation of the array it started from. -/
theorem sortedBy_spec (qsort : List Int → List Int) (hq : IsAscendingSort qsort)
    (data : List Int) (w : Nat) (hw : 1 ≤ w) :
    ∃ out, sortedBy qsort w data = some out ∧ out.Sorted (· ≤ ·) ∧ out.Perm data := by
  obtain ⟨M, hM, hlen, hsorted, hperm⟩ := foldIter_inv qsort hq data w hw (w - 1) (by omega)
  rw [Nat.sub_add_cancel hw] at hM hperm hlen
  have hnil : (headBlocks qsort data w w).drop (dsp data.length w w) = [] := by
    apply List.drop_eq_nil_of_le
    rw [headBlocks_length qsort hq data w w (Nat.le_refl _)]
  rw [hnil, List.append_nil] at hM
  refine ⟨M, ?_, hsorted, hperm.trans (headBlocks_full qsort hq data w hw)⟩
  simp only [sortedBy, rank0Branch, sends_possible data w, if_true,
    collected_eq qsort hq data w hw, Option.bind_eq_bind, Option.some_bind, hM, Option.pure_def]

theorem sampleSort_isAscendingSort : IsAscendingSort sampleSort :=
  fun l => ⟨List.sorted_insertionSort (· ≤ ·) l, List.perm_insertionSort (· ≤ ·) l⟩

theorem generate_length (rand : Nat → Nat) : (generate rand).length = NUM_ELEMENTS := by
  simp [generate]

/-- Rank 0 in a run of the six-rank program completes, returns 0 and prints
last an ascending permutation of the generated array. -/
theorem run6_spec (qsort : List Int → List Int) (hq : IsAscendingSort qsort) (rand : Nat → Nat) :
    ∃ out, run6 qsort rand = some (Outcome.mk 0
        (trace6 qsort (partitionLoop NUM_ELEMENTS 6) 6 (generate rand) out)) ∧
      out.Sorted (· ≤ ·) ∧ out.Perm (generate rand) := by
  obtain ⟨out, h, hs, hp⟩ := sortedBy_spec qsort hq (generate rand) 6 (by decide)
  rw [sortedBy, generate_length] at h
  refine ⟨out, ?_, hs, hp⟩
  simp only [run6, main6, ne_eq, not_true_eq_false, if_false, if_true, h, Option.bind_eq_bind,
    Option.some_bind, Option.pure_def]

/-- The two halves of the two-rank program in a run on `data`: what the gather
leaves in the root's array. -/
theorem gathered_eq (qsort : List Int → List Int) (hq : IsAscendingSort qsort)
    (data : List Int) (hlen : data.length = NUM_ELEMENTS) :
    gathered (NUM_ELEMENTS / 2) 2 (sortedParts qsort (NUM_ELEMENTS / 2) data) data =
      some (qsort (data.take 25) ++ qsort (data.drop 25)) := by
  have hN : NUM_ELEMENTS = 50 := rfl
  have hhalf : NUM_ELEMENTS / 2 = 25 := rfl
  rw [hN] at hlen
  have hA : (data.take 25).length = 25 := by rw [List.length_take]; omega
  have hB : (data.drop 25).length = 25 := by rw [List.length_drop]; omega
  have hqA : (qsort (data.take 25)).length = 25 := by rw [(hq _).2.length_eq, hA]
  have hqB : (qsort (data.drop 25)).length = 25 := by rw [(hq _).2.length_eq, hB]
  have p0 : sortedParts qsort 25 data 0 = some (qsort (data.take 25)) := by
    simp only [sortedParts, sortedPart, scatterPart, MPI_Send, Nat.zero_mul, List.drop_zero,
      hlen, Option.bind_eq_bind, MPI_Recv, malloc, List.length_replicate]
    simp [hA]
  have p1 : sortedParts qsort 25 data 1 = some (qsort (data.drop 25)) := by
    simp only [sortedParts, sortedPart, scatterPart, MPI_Send, Nat.one_mul, hB,
      Option.bind_eq_bind, MPI_Recv, malloc, List.length_replicate]
    have : List.take 25 (List.drop 25 data) = List.drop 25 data :=
      List.take_of_length_le (by omega)
    simp [this, hB]
  have s0 : MPI_Send (qsort (data.take 25)) 25 = some (qsort (data.take 25)) := by
    simp only [MPI_Send, hqA, Nat.le_refl, if_true]
    rw [List.take_of_length_le (Nat.le_of_eq hqA)]
  have s1 : MPI_Send (qsort (data.drop 25)) 25 = some (qsort (data.drop 25)) := by
    simp only [MPI_Send, hqB, Nat.le_refl, if_true]
    rw [List.take_of_length_le (Nat.le_of_eq hqB)]
  have r0 : MPI_Recv data 25 (qsort (data.take 25)) =
      some (qsort (data.take 25) ++ data.drop 25) := by
    simp only [MPI_Recv, hqA, hlen]
    simp
  have r1 : MPI_Recv (data.drop 25) 25 (qsort (data.drop 25)) = some (qsort (data.drop 25)) := by
    simp only [MPI_Recv, hqB, hB, List.drop_drop]
    simp [hlen]
  rw [hhalf]
  simp only [gathered, show List.range 2 = [0, 1] from rfl, List.foldlM_cons, List.foldlM_nil,
    gatherBody, p0, p1, Option.bind_eq_bind, Option.some_bind, s0, s1, Nat.zero_mul,
    Nat.one_mul, List.drop_zero, r0, Option.pure_def, storeAt, List.take_zero, List.nil_append,
    List.drop_left' hqA, List.take_left' hqA, r1]

theorem sortedBy2_spec (qsort : List Int → List Int) (hq : IsAscendingSort qsort)
    (data : List Int) (hlen : data.length = NUM_ELEMENTS) :
    ∃ out, sortedBy2 qsort data = some out ∧ out.Sorted (· ≤ ·) ∧ out.Perm data := by
  have hN : NUM_ELEMENTS = 50 := rfl
  have hhalf : NUM_ELEMENTS / 2 = 25 := rfl
  have hg := gathered_eq qsort hq data hlen
  rw [hN] at hlen
  have hqA : (qsort (data.take 25)).length = 25 := by
    rw [(hq _).2.length_eq, List.length_take]; omega
  have hqB : (qsort (data.drop 25)).length = 25 := by
    rw [(hq _).2.length_eq, List.length_drop]; omega
  refine ⟨twoPointer (qsort (data.take 25)) (qsort (data.drop 25)), ?_,
    twoPointer_sorted _ _ (hq _).1 (hq _).1, ?_⟩
  · simp only [sortedBy2, rootBranch2, hg, Option.bind_eq_bind, Option.some_bind]
    rw [hhalf, merge_eq _ _ _ _ (by simp [hqA, hqB]) (by simp [hqA, hqB])]
    have tB : (qsort (data.drop 25)).take 25 = qsort (data.drop 25) :=
      List.take_of_length_le (by omega)
    have dAB : (qsort (data.take 25) ++ qsort (data.drop 25)).drop (25 + 25) = [] :=
      List.drop_eq_nil_of_le (by simp [hqA, hqB])
    rw [List.take_left' hqA, List.drop_left' hqA, tB, dAB, List.append_nil]
  · refine (twoPointer_perm _ _).trans ?_
    have := ((hq (data.take 25)).2.append (hq (data.drop 25)).2)
    rw [List.take_append_drop] at this
    exact this

/-- Rank 0 in a run of the two-rank program completes, returns 0 and prints
last an ascending permutation of the generated array. -/
theorem run2_spec (qsort : List Int → List Int) (hq : IsAscendingSort qsort) (rand : Nat → Nat) :
    ∃ out, run2 qsort rand = some (Outcome.mk 0
        (trace2 (generate rand) (qsort ((generate rand).take 25)) out)) ∧
      out.Sorted (· ≤ ·) ∧ out.Perm (generate rand) := by
  obtain ⟨out, h, hs, hp⟩ := sortedBy2_spec qsort hq (generate rand) (generate_length rand)
  rw [sortedBy2] at h
  have hN : ¬ NUM_ELEMENTS % 2 ≠ 0 := by decide
  have hA : ((generate rand).take 25).length = 25 := by
    rw [List.length_take, generate_length]; rfl
  have p0 : sortedPart qsort (NUM_ELEMENTS / 2) (scatterPart (generate rand) (NUM_ELEMENTS / 2) 0) =
      some (qsort ((generate rand).take 25)) := by
    rw [show NUM_ELEMENTS / 2 = 25 from rfl]
    simp only [sortedPart, scatterPart, MPI_Send, Nat.zero_mul, List.drop_zero,
      generate_length, Option.bind_eq_bind, MPI_Recv, malloc, List.length_replicate]
    simp [hA, NUM_ELEMENTS]
  have hloc : (fun r => if r = 0 then some (qsort ((generate rand).take 25))
      else sortedParts qsort (NUM_ELEMENTS / 2) (generate rand) r) =
      sortedParts qsort (NUM_ELEMENTS / 2) (generate rand) := by
    funext r
    by_cases hr : r = 0
    · subst hr; rw [if_pos rfl, sortedParts, p0]
    · rw [if_neg hr]
  refine ⟨out, ?_, hs, hp⟩
  simp only [run2, main2, ne_eq, not_true_eq_false, if_false, if_true, hN, p0,
    Option.bind_eq_bind, Option.some_bind, Option.pure_def, hloc, h]

/-! ## Claims about the two programs -/

/-- C5: in the six-rank program, for every array of `NUM_ELEMENTS = 50` ints and
every local sorter that sorts ascending, rank 0 reaches the end of its merge
loop and its `data` array is then ascending and a permutation of the original
array. -/
theorem six_rank_sorted (qsort : List Int → List Int) (hq : IsAscendingSort qsort)
    (data : List Int) (hlen : data.length = NUM_ELEMENTS) :
    ∃ out, rank0Branch qsort (partitionLoop NUM_ELEMENTS 6)
        (workerReplies qsort (partitionLoop NUM_ELEMENTS 6) data) 6 data = some out ∧
      out.Sorted (· ≤ ·) ∧ out.Perm data := by
  have h := sortedBy_spec qsort hq data 6 (by decide)
  rw [sortedBy, hlen] at h
  exact h

/-- Witness for C5: insertion sort as the local sorter, on the array generated
from the sample `rand()` stream. -/
theorem six_rank_sorted_witness :
    ∃ out, rank0Branch sampleSort (partitionLoop NUM_ELEMENTS 6)
        (workerReplies sampleSort (partitionLoop NUM_ELEMENTS 6) (generate sampleRand)) 6
        (generate sampleRand) = some out ∧
      out.Sorted (· ≤ ·) ∧ out.Perm (generate sampleRand) :=
  six_rank_sorted sampleSort sampleSort_isAscendingSort (generate sampleRand) (by decide)

/-- The two-rank program with a local sorter that sorts every list ascending:
the scatter delivers `data[0..25)` to rank 0 and `data[25..50)` to rank 1, the
gather leaves the two sorted halves in `data`, and after the merge the array
of rank 0 is ascending and a permutation of the original array. -/
theorem two_rank_sorted_of_ascending (qsort : List Int → List Int) (hq : IsAscendingSort qsort)
    (data : List Int) (hlen : data.length = NUM_ELEMENTS) :
    scatterPart data (NUM_ELEMENTS / 2) 0 = some (data.take 25) ∧
    scatterPart data (NUM_ELEMENTS / 2) 1 = some (data.drop 25) ∧
    (data.take 25).length = 25 ∧ (data.drop 25).length = 25 ∧
    gathered (NUM_ELEMENTS / 2) 2 (sortedParts qsort (NUM_ELEMENTS / 2) data) data =
      some (qsort (data.take 25) ++ qsort (data.drop 25)) ∧
    ∃ out, sortedBy2 qsort data = some out ∧ out.Sorted (· ≤ ·) ∧ out.Perm data := by
  have hN : NUM_ELEMENTS = 50 := rfl
  have hhalf : NUM_ELEMENTS / 2 = 25 := rfl
  have hl : data.length = 50 := by rw [hlen, hN]
  have hB : (data.drop 25).length = 25 := by rw [List.length_drop]; omega
  refine ⟨?_, ?_, by rw [List.length_take]; omega, hB, gathered_eq qsort hq data hlen,
    sortedBy2_spec qsort hq data hlen⟩
  · simp only [scatterPart, MPI_Send, hhalf, Nat.zero_mul, List.drop_zero, hl]
    rfl
  · simp only [scatterPart, MPI_Send, hhalf, Nat.one_mul, hB, Nat.le_refl, if_true]
    rw [List.take_of_length_le (Nat.le_of_eq hB)]

/-- C10 fails as stated: started with 5 (resp. 3) processes, `main` of the
six-rank (resp. two-rank) program returns 0 on rank 0, which is also the value
rank 0 returns in a complete run with 6 (resp. 2) processes. -/
theorem mismatch_exit_counterexample :
    main6 sampleSort sampleRand (fun _ => none) 5 0 =
      some { ret := 0, trace := [Event.diagnostic] } ∧
    main2 sampleSort sampleRand none (fun _ => none) 3 0 =
      some { ret := 0, trace := [Event.diagnostic] } ∧
    (run6 sampleSort sampleRand).map Outcome.ret = some 0 ∧
    (run2 sampleSort sampleRand).map Outcome.ret = some 0 := by
  refine ⟨by simp [main6], by simp [main2], ?_, ?_⟩
  · obtain ⟨out, h, -⟩ := run6_spec sampleSort sampleSort_isAscendingSort sampleRand
    rw [h]; rfl
  · obtain ⟨out, h, -⟩ := run2_spec sampleSort sampleSort_isAscendingSort sampleRand
    rw [h]; rfl

/-- C10 as amended: when the group size differs from the expected one, `main`
returns at once; its only action is the diagnostic line on rank 0 (no data is
generated, sent, sorted or merged); and the value it returns is 0, the value
`main` returns on every path. -/
theorem mismatch_returns_early (qsort : List Int → List Int) (rand : Nat → Nat)
    (inbox locals : Nat → Option (List Int)) (part : Option (List Int)) (size rank : Nat) :
    (size ≠ 6 → main6 qsort rand inbox size rank =
      some { ret := 0, trace := if rank = 0 then [Event.diagnostic] else [] }) ∧
    (size ≠ 2 → main2 qsort rand part locals size rank =
      some { ret := 0, trace := if rank = 0 then [Event.diagnostic] else [] }) ∧
    (∀ o, main6 qsort rand inbox size rank = some o → o.ret = 0) ∧
    (∀ o, main2 qsort rand part locals size rank = some o → o.ret = 0) := by
  refine ⟨?_, ?_, ?_, ?_⟩
  · intro h
    simp only [main6, ne_eq, h, not_false_eq_true, if_true]
  · intro h
    simp only [main2, ne_eq, h, not_false_eq_true, if_true]
  · intro o ho
    unfold main6 at ho
    split at ho
    · cases ho; rfl
    · simp only at ho
      split at ho
      · cases hr : rank0Branch qsort (partitionLoop NUM_ELEMENTS size) inbox size (generate rand) with
        | none => rw [hr] at ho; cases ho
        | some d => rw [hr] at ho; cases ho; rfl
      · cases hr : workerBranch qsort ((partitionLoop NUM_ELEMENTS size).counts.getD rank 0)
          (inbox 0) with
        | none => rw [hr] at ho; cases ho
        | some d => rw [hr] at ho; cases ho; rfl
  · intro o ho
    unfold main2 at ho
    split at ho
    · cases ho; rfl
    · split at ho
      · cases ho; rfl
      · simp only at ho
        split at ho
        · cases h1 : sortedPart qsort (NUM_ELEMENTS / 2)
            (scatterPart (generate rand) (NUM_ELEMENTS / 2) 0) with
          | none => rw [h1] at ho; cases ho
          | some l =>
            rw [h1] at ho
            cases h2 : rootBranch2 (NUM_ELEMENTS / 2) size
                (fun r => if r = 0 then some l else locals r) (generate rand) with
            | none => simp [h2] at ho
            | some d => simp [h2] at ho; rw [← ho]
        · cases h1 : sortedPart qsort (NUM_ELEMENTS / 2) part with
          | none => rw [h1] at ho; cases ho
          | some l => rw [h1] at ho; cases ho; rfl

/-- Witness for the amended C10: 5 processes for the six-rank program, 3 for
the two-rank program, on rank 0 and on rank 1. -/
theorem mismatch_returns_early_witness :
    main6 sampleSort sampleRand (fun _ => none) 5 0 =
      some { ret := 0, trace := if 0 = 0 then [Event.diagnostic] else [] } ∧
    main2 sampleSort sampleRand none (fun _ => none) 3 1 =
      some { ret := 0, trace := if 1 = 0 then [Event.diagnostic] else [] } ∧
    (Outcome.mk 0 [Event.diagnostic]).ret = 0 :=
  ⟨(mismatch_returns_early sampleSort sampleRand (fun _ => none) (fun _ => none) none 5 0).1
      (by decide),
    (mismatch_returns_early sampleSort sampleRand (fun _ => none) (fun _ => none) none 3 1).2.1
      (by decide),
    (mismatch_returns_early sampleSort sampleRand (fun _ => none) (fun _ => none) none 5 0).2.2.1
      _ (by simp [main6])⟩


/-! ## Claims about `compare_int` -/

/-- C13 fails as stated: `compare_int(INT_MIN, 1)` is `INT_MAX`, a positive
value, although `INT_MIN < 1`; and `compare_int(INT_MAX, -1)` is `INT_MIN`, a
negative value, although `INT_MAX > -1`. -/
theorem compare_int_overflow_counterexample :
    INT_MIN ≤ -2147483648 ∧ (1 : Int) ≤ INT_MAX ∧
    compare_int (-2147483648) 1 = 2147483647 ∧
    ¬ (compare_int (-2147483648) 1 < 0 ↔ (-2147483648 : Int) < 1) ∧
    compare_int 2147483647 (-1) = -2147483648 ∧
    ¬ (0 < compare_int 2147483647 (-1) ↔ (-1 : Int) < 2147483647) := by
  decide

/-- C13 as amended: for two C `int`s whose exact difference is itself a C
`int`, `compare_int` returns that difference, so it is negative, zero or
positive exactly when `x < y`, `x = y` or `x > y`; when the difference is not a
C `int` the sign of the result is the wrong one. -/
theorem compare_int_order (x y : Int) (hx : INT_MIN ≤ x ∧ x ≤ INT_MAX)
    (hy : INT_MIN ≤ y ∧ y ≤ INT_MAX) :
    (INT_MIN ≤ x - y ∧ x - y ≤ INT_MAX →
      compare_int x y = x - y ∧ (compare_int x y < 0 ↔ x < y) ∧
      (compare_int x y = 0 ↔ x = y) ∧ (0 < compare_int x y ↔ y < x)) ∧
    (x - y < INT_MIN → x < y ∧ 0 ≤ compare_int x y) ∧
    (INT_MAX < x - y → y < x ∧ compare_int x y < 0) := by
  unfold INT_MIN INT_MAX at *
  unfold compare_int wrap32
  refine ⟨?_, ?_, ?_⟩ <;> intro h <;> omega

/-- Witness for the amended C13: `-5` against `7` (difference `-12`), and the
overflowing pair `INT_MAX`, `-1`. -/
theorem compare_int_order_witness :
    (compare_int (-5) 7 = -5 - 7 ∧ (compare_int (-5) 7 < 0 ↔ (-5 : Int) < 7) ∧
      (compare_int (-5) 7 = 0 ↔ (-5 : Int) = 7) ∧ (0 < compare_int (-5) 7 ↔ (7 : Int) < -5)) ∧
    ((-1 : Int) < 2147483647 ∧ compare_int 2147483647 (-1) < 0) :=
  ⟨(compare_int_order (-5) 7 (by decide) (by decide)).1 (by decide),
    (compare_int_order 2147483647 (-1) (by decide) (by decide)).2.2 (by decide)⟩

/-- C20: for two non-negative C `int`s the subtraction of `compare_int` does
not overflow (the exact difference is a C `int` and is the value returned), and
the result is negative, zero or positive exactly when `x < y`, `x = y` or
`x > y`.  Every value of the generated array lies in `[0, NUM_ELEMENTS)`, so it
is such an int. -/
theorem compare_int_nonneg (x y : Int) (hx : 0 ≤ x ∧ x ≤ INT_MAX) (hy : 0 ≤ y ∧ y ≤ INT_MAX) :
    (INT_MIN ≤ x - y ∧ x - y ≤ INT_MAX) ∧ compare_int x y = x - y ∧
    (compare_int x y < 0 ↔ x < y) ∧ (compare_int x y = 0 ↔ x = y) ∧
    (0 < compare_int x y ↔ y < x) ∧
    (∀ (rand : Nat → Nat) (v : Int), v ∈ generate rand →
      0 ≤ v ∧ v < (NUM_ELEMENTS : Int) ∧ v ≤ INT_MAX) := by
  refine ⟨?_, ?_, ?_, ?_, ?_, ?_⟩
  · unfold INT_MIN INT_MAX at *; omega
  · unfold INT_MAX at *; unfold compare_int wrap32; omega
  · unfold INT_MAX at *; unfold compare_int wrap32; omega
  · unfold INT_MAX at *; unfold compare_int wrap32; omega
  · unfold INT_MAX at *; unfold compare_int wrap32; omega
  · intro rand v hv
    simp only [generate, List.mem_map, List.mem_range] at hv
    obtain ⟨i, -, rfl⟩ := hv
    have h : rand i % NUM_ELEMENTS < NUM_ELEMENTS := Nat.mod_lt _ (by decide)
    unfold INT_MAX
    unfold NUM_ELEMENTS at *
    omega

/-- Witness for C20: the values `49` and `0`, the extremes of the generated
range, and the first value generated from the sample stream. -/
theorem compare_int_nonneg_witness :
    (INT_MIN ≤ (49 : Int) - 0 ∧ (49 : Int) - 0 ≤ INT_MAX) ∧ compare_int 49 0 = 49 - 0 ∧
    (compare_int 49 0 < 0 ↔ (49 : Int) < 0) ∧ (compare_int 49 0 = 0 ↔ (49 : Int) = 0) ∧
    (0 < compare_int 49 0 ↔ (0 : Int) < 49) ∧
    ((0 : Int) ≤ 13 ∧ (13 : Int) < (NUM_ELEMENTS : Int) ∧ (13 : Int) ≤ INT_MAX) :=
  ⟨(compare_int_nonneg 49 0 (by decide) (by decide)).1,
    (compare_int_nonneg 49 0 (by decide) (by decide)).2.1,
    (compare_int_nonneg 49 0 (by decide) (by decide)).2.2.1,
    (compare_int_nonneg 49 0 (by decide) (by decide)).2.2.2.1,
    (compare_int_nonneg 49 0 (by decide) (by decide)).2.2.2.2.1,
    (compare_int_nonneg 49 0 (by decide) (by decide)).2.2.2.2.2 sampleRand 13 (by decide)⟩

/-! ## Further claims about `merge` -/

theorem mergeIter_final (a : List Int) (numel_a : Nat) (b : List Int) (numel_b : Nat)
    (ha : numel_a ≤ a.length) (hb : numel_b ≤ b.length) :
    mergeIter a numel_a b numel_b (numel_a + numel_b) =
      some { sorted := twoPointer (a.take numel_a) (b.take numel_b),
             a_i := numel_a, b_i := numel_b } := by
  obtain ⟨s, hs, h1, h2, h3, h4, h5⟩ :=
    mergeIter_inv a numel_a b numel_b ha hb (numel_a + numel_b) (Nat.le_refl _)
  have e1 : s.a_i = numel_a := by omega
  have e2 : s.b_i = numel_b := by omega
  rw [e1, e2, drop_take_nil a numel_a numel_a (Nat.le_refl _), twoPointer_nil_left,
    drop_take_nil b numel_b numel_b (Nat.le_refl _), List.append_nil,
    List.take_of_length_le (Nat.le_of_eq h4)] at h5
  rw [hs]
  cases s with
  | mk sorted a_i b_i =>
    simp only at e1 e2 h5
    rw [e1, e2, h5]

/-- C11: merging the first `numel_a` slots of any array `a` with an empty `b`
(`numel_b = 0`) returns and leaves `a` unchanged, element for element. -/
theorem merge_empty_right (a : List Int) (numel_a : Nat) (b : List Int)
    (ha : numel_a ≤ a.length) :
    merge a numel_a b 0 = some a := by
  rw [merge_eq a numel_a b 0 (by omega) (Nat.zero_le _), List.take_zero, twoPointer_nil_right,
    Nat.add_zero, List.take_append_drop]

/-- Witness for C11: an array that is not ascending, with `b` pointing just
behind it as in the driver. -/
theorem merge_empty_right_witness :
    merge [3, 1, 2] 3 [] 0 = some [3, 1, 2] :=
  merge_empty_right [3, 1, 2] 3 [] (by decide)

/-- C16: `merge` called with `b` aliasing the tail of `a` (`b = a + numel_a`).
The loop completes having read only the array as it was before the call, the
scratch buffer then holds the two-pointer merge of the two source ranges, and
only then is it copied over `a`: the result has the length of `a`, its first
`numel_a + numel_b` slots are the scratch buffer, and every slot at an index
`≥ numel_a + numel_b` is unchanged. -/
theorem merge_alias_frame (a : List Int) (numel_a numel_b : Nat)
    (h : numel_a + numel_b ≤ a.length) :
    ∃ s out, mergeIter a numel_a (a.drop numel_a) numel_b (numel_a + numel_b) = some s ∧
      s.sorted = twoPointer (a.take numel_a) ((a.drop numel_a).take numel_b) ∧
      merge a numel_a (a.drop numel_a) numel_b = memcpy a s.sorted (numel_a + numel_b) ∧
      merge a numel_a (a.drop numel_a) numel_b = some out ∧
      out.length = a.length ∧ out.take (numel_a + numel_b) = s.sorted ∧
      out.drop (numel_a + numel_b) = a.drop (numel_a + numel_b) ∧
      (∀ i, numel_a + numel_b ≤ i → out[i]? = a[i]?) := by
  have hb : numel_b ≤ (a.drop numel_a).length := by rw [List.length_drop]; omega
  have hf := mergeIter_final a numel_a (a.drop numel_a) numel_b (by omega) hb
  have hm := merge_eq a numel_a (a.drop numel_a) numel_b h hb
  have hlen : (twoPointer (a.take numel_a) ((a.drop numel_a).take numel_b)).length =
      numel_a + numel_b := by
    rw [twoPointer_length, List.length_take, List.length_take]; omega
  refine ⟨_, _, hf, rfl, ?_, hm, ?_, List.take_left' hlen, List.drop_left' hlen, ?_⟩
  · simp only [merge, hf]
  · rw [List.length_append, hlen, List.length_drop]; omega
  · intro i hi
    rw [List.getElem?_append_right (by omega), hlen, List.getElem?_drop]
    congr 1
    omega

/-- Witness for C16: the accumulator `[1, 4]` merged with the block `[2, 3]`
behind it, followed by a later block `[0, 9]`. -/
theorem merge_alias_frame_witness :
    ∃ s out, mergeIter [1, 4, 2, 3, 0, 9] 2 (List.drop 2 [1, 4, 2, 3, 0, 9]) 2 (2 + 2) = some s ∧
      s.sorted = twoPointer (List.take 2 [1, 4, 2, 3, 0, 9])
        ((List.drop 2 [1, 4, 2, 3, 0, 9]).take 2) ∧
      merge [1, 4, 2, 3, 0, 9] 2 (List.drop 2 [1, 4, 2, 3, 0, 9]) 2 =
        memcpy [1, 4, 2, 3, 0, 9] s.sorted (2 + 2) ∧
      merge [1, 4, 2, 3, 0, 9] 2 (List.drop 2 [1, 4, 2, 3, 0, 9]) 2 = some out ∧
      out.length = ([1, 4, 2, 3, 0, 9] : List Int).length ∧ out.take (2 + 2) = s.sorted ∧
      out.drop (2 + 2) = List.drop (2 + 2) [1, 4, 2, 3, 0, 9] ∧
      (∀ i, 2 + 2 ≤ i → out[i]? = ([1, 4, 2, 3, 0, 9] : List Int)[i]?) :=
  merge_alias_frame [1, 4, 2, 3, 0, 9] 2 2 (by decide)

/-- C17: when the two buffers hold at least `numel_a` and `numel_b` ints, every
iteration `k < numel_a + numel_b` of the loop of `merge` starts in a state with
`a_i + b_i = k`, `a_i ≤ numel_a`, `b_i ≤ numel_b`; a position that is below its
bound is inside its buffer; when `a` is exhausted `b_i < numel_b`; the body
does not fail; and after `numel_a + numel_b` iterations `a_i = numel_a` and
`b_i = numel_b`. -/
theorem merge_reads_in_bounds (a : List Int) (numel_a : Nat) (b : List Int) (numel_b : Nat)
    (ha : numel_a ≤ a.length) (hb : numel_b ≤ b.length) :
    (∀ k, k < numel_a + numel_b → ∃ s s', mergeIter a numel_a b numel_b k = some s ∧
      s.a_i + s.b_i = k ∧ s.a_i ≤ numel_a ∧ s.b_i ≤ numel_b ∧
      (s.a_i < numel_a → s.a_i < a.length) ∧ (s.b_i < numel_b → s.b_i < b.length) ∧
      (¬ s.a_i < numel_a → s.b_i < numel_b) ∧
      mergeBody a numel_a b numel_b s k = some s' ∧
      mergeIter a numel_a b numel_b (k + 1) = some s') ∧
    (∃ s, mergeIter a numel_a b numel_b (numel_a + numel_b) = some s ∧
      s.a_i = numel_a ∧ s.b_i = numel_b) := by
  refine ⟨?_, _, mergeIter_final a numel_a b numel_b ha hb, rfl, rfl⟩
  intro k hk
  obtain ⟨s, hs, h1, h2, h3, -⟩ := mergeIter_inv a numel_a b numel_b ha hb k (by omega)
  obtain ⟨s', hs', -⟩ := mergeIter_inv a numel_a b numel_b ha hb (k + 1) (by omega)
  refine ⟨s, s', hs, h3, h1, h2, by omega, by omega, by omega, ?_, hs'⟩
  rw [mergeIter_succ, hs] at hs'
  exact hs'

/-- Witness for C17: iteration 2 of merging `[1, 2]` with `[3]`, where `a` is
exhausted. -/
theorem merge_reads_in_bounds_witness :
    (∃ s s', mergeIter [1, 2, 0] 2 [3] 1 2 = some s ∧
      s.a_i + s.b_i = 2 ∧ s.a_i ≤ 2 ∧ s.b_i ≤ 1 ∧
      (s.a_i < 2 → s.a_i < ([1, 2, 0] : List Int).length) ∧
      (s.b_i < 1 → s.b_i < ([3] : List Int).length) ∧
      (¬ s.a_i < 2 → s.b_i < 1) ∧
      mergeBody [1, 2, 0] 2 [3] 1 s 2 = some s' ∧
      mergeIter [1, 2, 0] 2 [3] 1 (2 + 1) = some s') ∧
    (∃ s, mergeIter [1, 2, 0] 2 [3] 1 (2 + 1) = some s ∧ s.a_i = 2 ∧ s.b_i = 1) :=
  ⟨(merge_reads_in_bounds [1, 2, 0] 2 [3] 1 (by decide) (by decide)).1 2 (by decide),
    (merge_reads_in_bounds [1, 2, 0] 2 [3] 1 (by decide) (by decide)).2⟩

theorem mergeSpec_perm (xs ys : List Int) : (mergeSpec xs ys).Perm (xs ++ ys) :=
  List.merge_perm_append _

theorem mergeSpec_sorted (xs ys : List Int) (hx : xs.Sorted (· ≤ ·)) (hy : ys.Sorted (· ≤ ·)) :
    (mergeSpec xs ys).Sorted (· ≤ ·) := by
  have h := @List.sorted_merge Int (fun (x y : Int) => decide (x ≤ y))
    (fun a b c hab hbc => decide_eq_true (Int.le_trans (of_decide_eq_true hab)
      (of_decide_eq_true hbc)))
    (fun a b => by
      rcases Int.le_total a b with h | h
      · simp [h]
      · simp [h])
    xs ys (hx.imp (fun h => decide_eq_true h)) (hy.imp (fun h => decide_eq_true h))
  exact h.imp (fun h => of_decide_eq_true h)

/-- On ascending inputs the loop of `merge` and the reference merge build the
same list: both results are ascending rearrangements of the same values. -/
theorem twoPointer_eq_mergeSpec (xs ys : List Int) (hx : xs.Sorted (· ≤ ·))
    (hy : ys.Sorted (· ≤ ·)) : twoPointer xs ys = mergeSpec xs ys :=
  List.eq_of_perm_of_sorted ((twoPointer_perm xs ys).trans (mergeSpec_perm xs ys).symm)
    (twoPointer_sorted xs ys hx hy) (mergeSpec_sorted xs ys hx hy)

/-- C18: on ascending inputs `merge` (which takes from `b` on a tie) leaves in
`a` exactly the output of the reference merge that takes from `a` on a tie,
followed by the untouched rest of `a`; on the inputs `[2, 1]` and `[2]`, which
are not ascending, the two outputs differ (`[2, 2, 1]` against `[2, 1, 2]`). -/
theorem merge_refines_mergeSpec (a : List Int) (numel_a : Nat) (b : List Int) (numel_b : Nat)
    (ha : numel_a + numel_b ≤ a.length) (hb : numel_b ≤ b.length)
    (hsa : (a.take numel_a).Sorted (· ≤ ·)) (hsb : (b.take numel_b).Sorted (· ≤ ·)) :
    merge a numel_a b numel_b =
      some (mergeSpec (a.take numel_a) (b.take numel_b) ++ a.drop (numel_a + numel_b)) ∧
    (merge [2, 1, 0] 2 [2] 1 = some [2, 2, 1] ∧ mergeSpec [2, 1] [2] = [2, 1, 2] ∧
      ¬ ([2, 1] : List Int).Sorted (· ≤ ·)) := by
  refine ⟨?_, by decide, ?_, by decide⟩
  · rw [merge_eq a numel_a b numel_b ha hb, twoPointer_eq_mergeSpec _ _ hsa hsb]
  · simp [mergeSpec, List.merge]

/-- Witness for C18: `[1, 3, 3]` and `[3, 4]`, with a tie on `3`. -/
theorem merge_refines_mergeSpec_witness :
    merge [1, 3, 3, 0, 0] 3 [3, 4] 2 =
      some (mergeSpec (List.take 3 [1, 3, 3, 0, 0]) (List.take 2 [3, 4]) ++
        List.drop (3 + 2) [1, 3, 3, 0, 0]) ∧
    (merge [2, 1, 0] 2 [2] 1 = some [2, 2, 1] ∧ mergeSpec [2, 1] [2] = [2, 1, 2] ∧
      ¬ ([2, 1] : List Int).Sorted (· ≤ ·)) :=
  merge_refines_mergeSpec [1, 3, 3, 0, 0] 3 [3, 4] 2 (by decide) (by decide) (by decide)
    (by decide)

/-! ## Further facts about the six-rank pipeline -/

theorem headBlocks_take (qsort : List Int → List Int) (hq : IsAscendingSort qsort)
    (data : List Int) (w m : Nat) : ∀ j, m + j ≤ w →
    (headBlocks qsort data w (m + j)).take (dsp data.length w m) = headBlocks qsort data w m
  | 0, h => by
    rw [Nat.add_zero, List.take_of_length_le]
    rw [headBlocks_length qsort hq data w m (by omega)]
  | j + 1, h => by
    have hlen := headBlocks_length qsort hq data w (m + j) (by omega)
    have hmono : dsp data.length w m ≤ dsp data.length w (m + j) := dsp_mono _ _ (by omega)
    rw [← Nat.add_assoc, headBlocks, List.take_append_of_le_length (by omega)]
    exact headBlocks_take qsort hq data w m j (by omega)

theorem headBlocks_slice (qsort : List Int → List Int) (hq : IsAscendingSort qsort)
    (data : List Int) (w r : Nat) (hr : r < w) :
    ((headBlocks qsort data w w).drop (dsp data.length w r)).take (cnt data.length w r) =
      qsort (chunk data w r) := by
  rw [headBlocks_drop qsort hq data w r w hr (Nat.le_refl _),
    List.take_left' (sorted_chunk_length qsort hq data w r hr)]

theorem counts_take_sum (n w r : Nat) (hr : r ≤ w) :
    ((partitionLoop n w).counts.take r).sum = dsp n w r := by
  rw [partitionLoop_counts, ← List.map_take, List.take_range, Nat.min_eq_left hr, sum_map_cnt]

/-- One iteration of the merge loop, for rank `r`, in a run of a group of `w`
ranks: the state before it, the state after it and what they satisfy. -/
theorem foldIter_step (qsort : List Int → List Int) (hq : IsAscendingSort qsort)
    (data : List Int) (w : Nat) (hw : 1 ≤ w) (r : Nat) (h1 : 1 ≤ r) (hr : r < w) :
    ∃ s s', foldIter (partitionLoop data.length w) (headBlocks qsort data w w) (r - 1) = some s ∧
      s.merged_n = (partitionLoop data.length w).displs.getD r 0 ∧
      s.merged_n = ((partitionLoop data.length w).counts.take r).sum ∧
      (s.data.take s.merged_n).Sorted (· ≤ ·) ∧
      foldBody (partitionLoop data.length w) s r = some s' ∧
      foldIter (partitionLoop data.length w) (headBlocks qsort data w w) r = some s' ∧
      s'.merged_n = ((partitionLoop data.length w).counts.take (r + 1)).sum ∧
      (s'.data.take s'.merged_n).Sorted (· ≤ ·) ∧
      (s'.data.take s'.merged_n).Perm ((headBlocks qsort data w w).take s'.merged_n) := by
  obtain ⟨k, rfl⟩ : ∃ k, r = k + 1 := ⟨r - 1, by omega⟩
  obtain ⟨M, hM, hlen, hsorted, -⟩ := foldIter_inv qsort hq data w hw k (by omega)
  obtain ⟨M', hM', hlen', hsorted', hperm'⟩ := foldIter_inv qsort hq data w hw (k + 1) (by omega)
  have hstep := foldIter_succ (partitionLoop data.length w) (headBlocks qsort data w w) k
  rw [hM, hM', Option.some_bind, Nat.add_comm 1 k] at hstep
  have ht := headBlocks_take qsort hq data w (k + 1 + 1) (w - (k + 1 + 1)) (by omega)
  rw [show k + 1 + 1 + (w - (k + 1 + 1)) = w by omega] at ht
  refine ⟨_, _, by rw [Nat.add_sub_cancel]; exact hM, ?_, ?_, ?_, hstep.symm, hM', ?_, ?_, ?_⟩
  · exact (displs_getD _ w (k + 1) hr).symm
  · exact (counts_take_sum _ w (k + 1) (by omega)).symm
  · simp only [List.take_left' hlen]; exact hsorted
  · exact (counts_take_sum _ w (k + 1 + 1) (by omega)).symm
  · simp only [List.take_left' hlen']; exact hsorted'
  · simp only [List.take_left' hlen', ht]; exact hperm'

/-- One iteration of the receive loop, for rank `k + 1`, in a run of a group of
`w` ranks: only the range of that rank changes. -/
theorem recvIter_frame (qsort : List Int → List Int) (hq : IsAscendingSort qsort)
    (data : List Int) (w : Nat) (hw : 1 ≤ w) (k : Nat) (hk : k + 1 < w) :
    ∃ e e', recvIter qsort (partitionLoop data.length w)
        (workerReplies qsort (partitionLoop data.length w) data) data k = some e ∧
      recvIter qsort (partitionLoop data.length w)
        (workerReplies qsort (partitionLoop data.length w) data) data (k + 1) = some e' ∧
      e'.take ((partitionLoop data.length w).displs.getD (k + 1) 0) =
        e.take ((partitionLoop data.length w).displs.getD (k + 1) 0) ∧
      e'.drop ((partitionLoop data.length w).displs.getD (k + 1) 0 +
          (partitionLoop data.length w).counts.getD (k + 1) 0) =
        e.drop ((partitionLoop data.length w).displs.getD (k + 1) 0 +
          (partitionLoop data.length w).counts.getD (k + 1) 0) := by
  have hlen := headBlocks_length qsort hq data w (k + 1) (by omega)
  have hlen' := headBlocks_length qsort hq data w (k + 1 + 1) (by omega)
  refine ⟨_, _, recvIter_inv qsort hq data w hw k (by omega),
    recvIter_inv qsort hq data w hw (k + 1) (by omega), ?_, ?_⟩
  · rw [displs_getD _ w (k + 1) hk, List.take_left' hlen, headBlocks, List.append_assoc,
      List.take_left' hlen]
  · rw [dsp_succ] at hlen'
    have hl : List.drop (dsp data.length w (k + 1) + cnt data.length w (k + 1))
        (headBlocks qsort data w (k + 1 + 1) ++
          List.drop (dsp data.length w (k + 1 + 1)) data) =
        List.drop (dsp data.length w (k + 1 + 1)) data := List.drop_left' hlen'
    have hr : List.drop (dsp data.length w (k + 1) + cnt data.length w (k + 1))
        (headBlocks qsort data w (k + 1) ++ List.drop (dsp data.length w (k + 1)) data) =
        List.drop (dsp data.length w (k + 1 + 1)) data := by
      rw [← List.drop_drop, List.drop_left' hlen, List.drop_drop, ← dsp_succ]
    rw [displs_getD _ w (k + 1) hk, counts_getD _ w (k + 1) hk, hl, hr]

/-! ## Further claims about the two programs -/

/-- C12 fails as stated: started as a group of one process, `main` of either
program stops at the size check; rank 0 only prints the diagnostic and returns
0, nothing is generated or sorted. -/
theorem single_rank_counterexample :
    main6 sampleSort sampleRand (fun _ => none) 1 0 =
      some { ret := 0, trace := [Event.diagnostic] } ∧
    main2 sampleSort sampleRand none (fun _ => none) 1 0 =
      some { ret := 0, trace := [Event.diagnostic] } := by
  refine ⟨by simp [main6], by simp [main2]⟩

/-- C12 as amended: with a group of size 1 `main` stops at the size check (the
diagnostic on rank 0 is its only action).  The rank-0 branch itself, taken for
one rank, would need no message, sort the whole array by its own `qsort` and
run the merge loop for zero iterations. -/
theorem single_rank_guarded (qsort : List Int → List Int) (hq : IsAscendingSort qsort)
    (rand : Nat → Nat) (inbox locals : Nat → Option (List Int)) (part : Option (List Int))
    (rank : Nat) (data : List Int) :
    main6 qsort rand inbox 1 rank =
      some { ret := 0, trace := if rank = 0 then [Event.diagnostic] else [] } ∧
    main2 qsort rand part locals 1 rank =
      some { ret := 0, trace := if rank = 0 then [Event.diagnostic] else [] } ∧
    (∀ d, foldIter (partitionLoop data.length 1) d (1 - 1) =
      some { data := d, merged_n := (partitionLoop data.length 1).counts.getD 0 0 }) ∧
    rank0Branch qsort (partitionLoop data.length 1) inbox 1 data = some (qsort data) := by
  refine ⟨by simp [main6], by simp [main2], fun d => rfl, ?_⟩
  have hc := collected_eq qsort hq data 1 (Nat.le_refl _)
  have hch : chunk data 1 0 = data := by
    simp [chunk, dsp, cnt, Nat.mod_one]
  simp only [recvIter, Nat.sub_self, List.range'_zero, List.foldlM_nil, headBlocks,
    List.nil_append, hch] at hc
  simp only [rank0Branch, Nat.sub_self, List.range'_zero, List.all_nil, if_true, recvIter,
    List.foldlM_nil, hc, foldIter, Option.bind_eq_bind, Option.some_bind, Option.pure_def]
  cases h : ownChunk qsort (partitionLoop data.length 1) data with
  | none => rw [h] at hc; simp at hc
  | some d =>
    rw [h] at hc
    simp only [Option.bind_eq_bind, Option.some_bind, Option.pure_def] at hc
    simpa using hc

/-- Witness for the amended C12: insertion sort on the sample array. -/
theorem single_rank_guarded_witness :
    main6 sampleSort sampleRand (fun _ => none) 1 0 =
      some { ret := 0, trace := if 0 = 0 then [Event.diagnostic] else [] } ∧
    main2 sampleSort sampleRand none (fun _ => none) 1 0 =
      some { ret := 0, trace := if 0 = 0 then [Event.diagnostic] else [] } ∧
    (∀ d, foldIter (partitionLoop sampleData.length 1) d (1 - 1) =
      some { data := d, merged_n := (partitionLoop sampleData.length 1).counts.getD 0 0 }) ∧
    rank0Branch sampleSort (partitionLoop sampleData.length 1) (fun _ => none) 1 sampleData =
      some (sampleSort sampleData) :=
  single_rank_guarded sampleSort sampleSort_isAscendingSort sampleRand (fun _ => none)
    (fun _ => none) none 0 sampleData

/-- C14: in the six-rank program on an array of 50 ints, with `d` the array of
rank 0 after the receive loop, the iteration of the merge loop for rank `r`
(`1 ≤ r < 6`) starts with `merged_n = displs[r] = counts[0] + ... + counts[r-1]`
and `data[0..merged_n)` ascending; it ends with `merged_n = counts[0] + ... +
counts[r]`, `data[0..merged_n)` ascending and a permutation of the first `r + 1`
sorted partitions of `d`. -/
theorem merge_loop_invariant (qsort : List Int → List Int) (hq : IsAscendingSort qsort)
    (data : List Int) (hlen : data.length = NUM_ELEMENTS) (r : Nat) (h1 : 1 ≤ r) (hr : r < 6) :
    ∃ d s s', recvIter qsort (partitionLoop NUM_ELEMENTS 6)
        (workerReplies qsort (partitionLoop NUM_ELEMENTS 6) data) data (6 - 1) = some d ∧
      foldIter (partitionLoop NUM_ELEMENTS 6) d (r - 1) = some s ∧
      s.merged_n = (partitionLoop NUM_ELEMENTS 6).displs.getD r 0 ∧
      s.merged_n = ((partitionLoop NUM_ELEMENTS 6).counts.take r).sum ∧
      (s.data.take s.merged_n).Sorted (· ≤ ·) ∧
      foldBody (partitionLoop NUM_ELEMENTS 6) s r = some s' ∧
      foldIter (partitionLoop NUM_ELEMENTS 6) d r = some s' ∧
      s'.merged_n = ((partitionLoop NUM_ELEMENTS 6).counts.take (r + 1)).sum ∧
      (s'.data.take s'.merged_n).Sorted (· ≤ ·) ∧
      (s'.data.take s'.merged_n).Perm (d.take s'.merged_n) := by
  have hc := collected_eq qsort hq data 6 (by decide)
  obtain ⟨s, s', h⟩ := foldIter_step qsort hq data 6 (by decide) r h1 hr
  rw [hlen] at hc h
  exact ⟨_, s, s', hc, h⟩

/-- Witness for C14: the iteration for rank 3 on the sample array. -/
theorem merge_loop_invariant_witness :
    ∃ d s s', recvIter sampleSort (partitionLoop NUM_ELEMENTS 6)
        (workerReplies sampleSort (partitionLoop NUM_ELEMENTS 6) sampleData) sampleData
        (6 - 1) = some d ∧
      foldIter (partitionLoop NUM_ELEMENTS 6) d (3 - 1) = some s ∧
      s.merged_n = (partitionLoop NUM_ELEMENTS 6).displs.getD 3 0 ∧
      s.merged_n = ((partitionLoop NUM_ELEMENTS 6).counts.take 3).sum ∧
      (s.data.take s.merged_n).Sorted (· ≤ ·) ∧
      foldBody (partitionLoop NUM_ELEMENTS 6) s 3 = some s' ∧
      foldIter (partitionLoop NUM_ELEMENTS 6) d 3 = some s' ∧
      s'.merged_n = ((partitionLoop NUM_ELEMENTS 6).counts.take (3 + 1)).sum ∧
      (s'.data.take s'.merged_n).Sorted (· ≤ ·) ∧
      (s'.data.take s'.merged_n).Perm (d.take s'.merged_n) :=
  merge_loop_invariant sampleSort sampleSort_isAscendingSort sampleData (by decide) 3
    (by decide) (by decide)

/-- C15: in the six-rank program on an array of 50 ints, rank 0 completes the
receive loop with an array `d` of the same length in which, for every rank
`r < 6`, the range `[displs[r], displs[r] + counts[r])` is the `qsort` of the
original contents of that range, hence ascending and a permutation of them;
every worker `r ≥ 1` was sent exactly that range and sent back its `qsort`; and
each iteration of the receive loop changes no slot outside the range of its
rank. -/
theorem collected_ranges (qsort : List Int → List Int) (hq : IsAscendingSort qsort)
    (data : List Int) (hlen : data.length = NUM_ELEMENTS) :
    ∃ d, recvIter qsort (partitionLoop NUM_ELEMENTS 6)
        (workerReplies qsort (partitionLoop NUM_ELEMENTS 6) data) data (6 - 1) = some d ∧
      d.length = data.length ∧
      (∀ r, r < 6 →
        (d.drop ((partitionLoop NUM_ELEMENTS 6).displs.getD r 0)).take
            ((partitionLoop NUM_ELEMENTS 6).counts.getD r 0) =
          qsort ((data.drop ((partitionLoop NUM_ELEMENTS 6).displs.getD r 0)).take
            ((partitionLoop NUM_ELEMENTS 6).counts.getD r 0)) ∧
        ((d.drop ((partitionLoop NUM_ELEMENTS 6).displs.getD r 0)).take
            ((partitionLoop NUM_ELEMENTS 6).counts.getD r 0)).Sorted (· ≤ ·) ∧
        ((d.drop ((partitionLoop NUM_ELEMENTS 6).displs.getD r 0)).take
            ((partitionLoop NUM_ELEMENTS 6).counts.getD r 0)).Perm
          ((data.drop ((partitionLoop NUM_ELEMENTS 6).displs.getD r 0)).take
            ((partitionLoop NUM_ELEMENTS 6).counts.getD r 0))) ∧
      (∀ r, 1 ≤ r → r < 6 →
        sendChunk (partitionLoop NUM_ELEMENTS 6) data r =
          some ((data.drop ((partitionLoop NUM_ELEMENTS 6).displs.getD r 0)).take
            ((partitionLoop NUM_ELEMENTS 6).counts.getD r 0)) ∧
        workerReplies qsort (partitionLoop NUM_ELEMENTS 6) data r =
          some (qsort ((data.drop ((partitionLoop NUM_ELEMENTS 6).displs.getD r 0)).take
            ((partitionLoop NUM_ELEMENTS 6).counts.getD r 0)))) ∧
      (∀ k, k + 1 < 6 → ∃ e e',
        recvIter qsort (partitionLoop NUM_ELEMENTS 6)
          (workerReplies qsort (partitionLoop NUM_ELEMENTS 6) data) data k = some e ∧
        recvIter qsort (partitionLoop NUM_ELEMENTS 6)
          (workerReplies qsort (partitionLoop NUM_ELEMENTS 6) data) data (k + 1) = some e' ∧
        e'.take ((partitionLoop NUM_ELEMENTS 6).displs.getD (k + 1) 0) =
          e.take ((partitionLoop NUM_ELEMENTS 6).displs.getD (k + 1) 0) ∧
        e'.drop ((partitionLoop NUM_ELEMENTS 6).displs.getD (k + 1) 0 +
            (partitionLoop NUM_ELEMENTS 6).counts.getD (k + 1) 0) =
          e.drop ((partitionLoop NUM_ELEMENTS 6).displs.getD (k + 1) 0 +
            (partitionLoop NUM_ELEMENTS 6).counts.getD (k + 1) 0)) := by
  have hc := collected_eq qsort hq data 6 (by decide)
  have hslice : ∀ r, r < 6 →
      ((headBlocks qsort data 6 6).drop ((partitionLoop data.length 6).displs.getD r 0)).take
          ((partitionLoop data.length 6).counts.getD r 0) =
        qsort ((data.drop ((partitionLoop data.length 6).displs.getD r 0)).take
          ((partitionLoop data.length 6).counts.getD r 0)) := by
    intro r hr
    rw [displs_getD _ 6 r hr, counts_getD _ 6 r hr, headBlocks_slice qsort hq data 6 r hr, chunk]
  have hsend : ∀ r, r < 6 → sendChunk (partitionLoop data.length 6) data r =
      some ((data.drop ((partitionLoop data.length 6).displs.getD r 0)).take
        ((partitionLoop data.length 6).counts.getD r 0)) := by
    intro r hr
    rw [sendChunk_eq data 6 r hr, displs_getD _ 6 r hr, counts_getD _ 6 r hr, chunk]
  have hreply : ∀ r, r < 6 → workerReplies qsort (partitionLoop data.length 6) data r =
      some (qsort ((data.drop ((partitionLoop data.length 6).displs.getD r 0)).take
        ((partitionLoop data.length 6).counts.getD r 0))) := by
    intro r hr
    rw [workerReplies_eq qsort hq data 6 r hr, displs_getD _ 6 r hr, counts_getD _ 6 r hr, chunk]
  have hframe := fun k (hk : k + 1 < 6) => recvIter_frame qsort hq data 6 (by decide) k hk
  have hl : (headBlocks qsort data 6 6).length = data.length := by
    rw [headBlocks_length qsort hq data 6 6 (Nat.le_refl _), dsp_full _ 6 (by decide)]
  rw [hlen] at hc hslice hsend hreply hframe
  refine ⟨_, hc, hl, ?_, ?_, hframe⟩
  · intro r hr
    refine ⟨hslice r hr, ?_, ?_⟩
    · rw [hslice r hr]; exact (hq _).1
    · rw [hslice r hr]; exact (hq _).2
  · intro r _ hr
    exact ⟨hsend r hr, hreply r hr⟩

/-- Witness for C15: insertion sort on the sample array. -/
theorem collected_ranges_witness :
    ∃ d, recvIter sampleSort (partitionLoop NUM_ELEMENTS 6)
        (workerReplies sampleSort (partitionLoop NUM_ELEMENTS 6) sampleData) sampleData
        (6 - 1) = some d ∧
      d.length = sampleData.length ∧
      ((d.drop ((partitionLoop NUM_ELEMENTS 6).displs.getD 2 0)).take
            ((partitionLoop NUM_ELEMENTS 6).counts.getD 2 0)).Sorted (· ≤ ·) ∧
      ((d.drop ((partitionLoop NUM_ELEMENTS 6).displs.getD 2 0)).take
            ((partitionLoop NUM_ELEMENTS 6).counts.getD 2 0)).Perm
          ((sampleData.drop ((partitionLoop NUM_ELEMENTS 6).displs.getD 2 0)).take
            ((partitionLoop NUM_ELEMENTS 6).counts.getD 2 0)) := by
  obtain ⟨d, h1, h2, h3, -⟩ :=
    collected_ranges sampleSort sampleSort_isAscendingSort sampleData (by decide)
  exact ⟨d, h1, h2, (h3 2 (by decide)).2.1, (h3 2 (by decide)).2.2⟩

/-- With a local sorter that sorts every list ascending, rank 0 of the two-rank
program and rank 0 of the six-rank program end with the same array, the
ascending sort of the input. -/
theorem pipelines_agree_of_ascending (qsort : List Int → List Int) (hq : IsAscendingSort qsort)
    (data : List Int) (hlen : data.length = NUM_ELEMENTS) :
    sortedBy2 qsort data = some (List.insertionSort (· ≤ ·) data) ∧
    rank0Branch qsort (partitionLoop NUM_ELEMENTS 6)
      (workerReplies qsort (partitionLoop NUM_ELEMENTS 6) data) 6 data =
        some (List.insertionSort (· ≤ ·) data) ∧
    sortedBy2 qsort data = rank0Branch qsort (partitionLoop NUM_ELEMENTS 6)
      (workerReplies qsort (partitionLoop NUM_ELEMENTS 6) data) 6 data := by
  obtain ⟨o2, h2, hs2, hp2⟩ := sortedBy2_spec qsort hq data hlen
  obtain ⟨o6, h6, hs6, hp6⟩ := sortedBy_spec qsort hq data 6 (by decide)
  rw [sortedBy, hlen] at h6
  have e2 : o2 = List.insertionSort (· ≤ ·) data :=
    List.eq_of_perm_of_sorted (hp2.trans (List.perm_insertionSort (· ≤ ·) data).symm) hs2
      (List.sorted_insertionSort (· ≤ ·) data)
  have e6 : o6 = List.insertionSort (· ≤ ·) data :=
    List.eq_of_perm_of_sorted (hp6.trans (List.perm_insertionSort (· ≤ ·) data).symm) hs6
      (List.sorted_insertionSort (· ≤ ·) data)
  rw [h2, h6, e2, e6]
  exact ⟨rfl, rfl, rfl⟩

/-! ## The programs with `qsort` driven by `compare_int` -/

theorem compare_int_exact (x y : Int) (h : INT_MIN ≤ x - y ∧ x - y ≤ INT_MAX) :
    (compare_int x y < 0 ↔ x < y) ∧ (compare_int x y = 0 ↔ x = y) ∧
    (0 < compare_int x y ↔ y < x) := by
  unfold INT_MIN INT_MAX at h
  unfold compare_int wrap32
  refine ⟨?_, ?_, ?_⟩ <;> omega

theorem generate_inRange (rand : Nat → Nat) : InRange (generate rand) := by
  intro x hx y hy
  simp only [generate, List.mem_map, List.mem_range] at hx hy
  obtain ⟨i, -, rfl⟩ := hx
  obtain ⟨j, -, rfl⟩ := hy
  have h1 : rand i % NUM_ELEMENTS < NUM_ELEMENTS := Nat.mod_lt _ (by decide)
  have h2 : rand j % NUM_ELEMENTS < NUM_ELEMENTS := Nat.mod_lt _ (by decide)
  unfold INT_MIN INT_MAX
  unfold NUM_ELEMENTS at *
  omega

theorem orderedInsert_congr (r r' : Int → Int → Prop) [DecidableRel r] [DecidableRel r']
    (a : Int) : ∀ (m : List Int), (∀ b, b ∈ m → (r a b ↔ r' a b)) →
    List.orderedInsert r a m = List.orderedInsert r' a m
  | [], _ => rfl
  | b :: m, h => by
    have hb := h b (List.mem_cons_self _ _)
    have ih := orderedInsert_congr r r' a m (fun c hc => h c (List.mem_cons_of_mem _ hc))
    by_cases hr : r a b
    · simp [List.orderedInsert, hr, hb.mp hr]
    · have hr' : ¬ r' a b := fun h' => hr (hb.mpr h')
      simp [List.orderedInsert, hr, hr', ih]

theorem insertionSort_congr (r r' : Int → Int → Prop) [DecidableRel r] [DecidableRel r'] :
    ∀ (l : List Int), (∀ a, a ∈ l → ∀ b, b ∈ l → (r a b ↔ r' a b)) →
    List.insertionSort r l = List.insertionSort r' l
  | [], _ => rfl
  | a :: l, h => by
    have ih := insertionSort_congr r r' l
      (fun x hx y hy => h x (List.mem_cons_of_mem _ hx) y (List.mem_cons_of_mem _ hy))
    rw [List.insertionSort, List.insertionSort, ih]
    apply orderedInsert_congr
    intro b hb
    have hb' : b ∈ l := (List.perm_insertionSort r' l).subset hb
    exact h a (List.mem_cons_self _ _) b (List.mem_cons_of_mem _ hb')

/-- The comparator-driven insertion sort meets the contract of `qsort`. -/
theorem cmpSort_isQsort : IsQsort cmpSort := by
  intro cmp l h
  have e : cmpSort cmp l = List.insertionSort (· ≤ ·) l := by
    apply insertionSort_congr
    intro a ha b hb
    obtain ⟨h1, h2, -⟩ := h a ha b hb
    show cmp a b ≤ 0 ↔ a ≤ b
    omega
  rw [e]
  exact ⟨List.sorted_insertionSort (· ≤ ·) l, List.perm_insertionSort (· ≤ ·) l⟩

/-- On an array where `compare_int` does not overflow, a `qsort` driven by it
coincides, on every list made of values of the array, with some sorter that
sorts every list ascending. -/
theorem qsort_in_range (qs : (Int → Int → Int) → List Int → List Int) (hqs : IsQsort qs)
    (data : List Int) (hr : InRange data) :
    ∃ q, IsAscendingSort q ∧ ∀ l, (∀ x, x ∈ l → x ∈ data) → q l = qs compare_int l := by
  classical
  refine ⟨fun l => if (∀ x, x ∈ l → x ∈ data) then qs compare_int l
    else List.insertionSort (· ≤ ·) l, ?_, ?_⟩
  · intro l
    by_cases h : ∀ x, x ∈ l → x ∈ data
    · show List.Sorted _ (if _ then _ else _) ∧ List.Perm (if _ then _ else _) _
      rw [if_pos h]
      exact hqs compare_int l
        (fun x hx y hy => compare_int_exact x y (hr x (h x hx) y (h y hy)))
    · show List.Sorted _ (if _ then _ else _) ∧ List.Perm (if _ then _ else _) _
      rw [if_neg h]
      exact ⟨List.sorted_insertionSort (· ≤ ·) l, List.perm_insertionSort (· ≤ ·) l⟩
  · intro l h
    exact if_pos h

theorem foldlM_congr_mem {σ : Type} (f g : σ → Nat → Option σ) :
    ∀ (l : List Nat) (init : σ), (∀ x, x ∈ l → ∀ s, f s x = g s x) →
    l.foldlM f init = l.foldlM g init
  | [], _, _ => rfl
  | x :: l, init, h => by
    rw [List.foldlM_cons, List.foldlM_cons, h x (List.mem_cons_self _ _) init]
    cases g init x with
    | none => rfl
    | some s =>
      exact foldlM_congr_mem f g l s (fun y hy => h y (List.mem_cons_of_mem _ hy))

theorem chunk_subset (data : List Int) (w r : Nat) : ∀ x, x ∈ chunk data w r → x ∈ data :=
  fun _ hx => List.mem_of_mem_drop (List.mem_of_mem_take hx)

theorem ownChunk_unfold (qsort : List Int → List Int) (data : List Int) (w : Nat)
    (hw : 1 ≤ w) :
    ownChunk qsort (partitionLoop data.length w) data =
      (memcpy data (qsort (chunk data w 0)) (cnt data.length w 0)).bind
        (fun view => some (storeAt data 0 view)) := by
  have h0 : 0 < w := by omega
  have hle := dsp_succ_le data.length w 0 h0
  have hd : dsp data.length w 0 = 0 := dsp_zero _ _
  rw [hd] at hle
  have e1 : memcpy (malloc (cnt data.length w 0)) data (cnt data.length w 0) =
      some (chunk data w 0) := by
    simp only [memcpy, malloc, List.length_replicate, Nat.le_refl, true_and, chunk, hd,
      List.drop_zero, List.drop_replicate, Nat.sub_self, List.replicate_zero, List.append_nil]
    rw [if_pos (by omega)]
  simp only [ownChunk, displs_getD _ w 0 h0, counts_getD _ w 0 h0, hd, List.drop_zero, e1,
    Option.bind_eq_bind, Option.some_bind, Option.pure_def]

theorem workerReplies_unfold (qsort : List Int → List Int) (data : List Int) (w r : Nat)
    (hr : r < w) :
    workerReplies qsort (partitionLoop data.length w) data r =
      MPI_Send (qsort (chunk data w r)) (cnt data.length w r) := by
  have hc := chunk_length data w r hr
  simp only [workerReplies, workerBranch, sendChunk_eq data w r hr, counts_getD _ w r hr,
    Option.bind_eq_bind, Option.some_bind, MPI_Recv, malloc, hc, List.length_replicate,
    Nat.le_refl, and_self, if_true, List.drop_replicate, Nat.sub_self, List.replicate_zero,
    List.append_nil]

/-- The run of the group depends on the local sorter only through what it
returns on the chunks of the ranks. -/
theorem sortedBy_congr (q q' : List Int → List Int) (data : List Int) (w : Nat) (hw : 1 ≤ w)
    (h : ∀ r, r < w → q (chunk data w r) = q' (chunk data w r)) :
    sortedBy q w data = sortedBy q' w data := by
  have hown : ownChunk q (partitionLoop data.length w) data =
      ownChunk q' (partitionLoop data.length w) data := by
    rw [ownChunk_unfold q data w hw, ownChunk_unfold q' data w hw, h 0 (by omega)]
  have hrecv : recvIter q (partitionLoop data.length w)
        (workerReplies q (partitionLoop data.length w) data) data (w - 1) =
      recvIter q' (partitionLoop data.length w)
        (workerReplies q' (partitionLoop data.length w) data) data (w - 1) := by
    simp only [recvIter, hown, Option.bind_eq_bind]
    cases ownChunk q' (partitionLoop data.length w) data with
    | none => rfl
    | some d =>
      simp only [Option.some_bind]
      apply foldlM_congr_mem
      intro r hr s
      rw [List.mem_range'_1] at hr
      simp only [recvBody, workerReplies_unfold q data w r (by omega),
        workerReplies_unfold q' data w r (by omega), h r (by omega)]
  simp only [sortedBy, rank0Branch, hrecv]

theorem sortedParts_eq (qsort : List Int → List Int) (data : List Int)
    (hlen : data.length = NUM_ELEMENTS) :
    sortedParts qsort (NUM_ELEMENTS / 2) data 0 = some (qsort (data.take 25)) ∧
    sortedParts qsort (NUM_ELEMENTS / 2) data 1 = some (qsort (data.drop 25)) := by
  have hN : NUM_ELEMENTS = 50 := rfl
  have hhalf : NUM_ELEMENTS / 2 = 25 := rfl
  rw [hN] at hlen
  have hA : (data.take 25).length = 25 := by rw [List.length_take]; omega
  have hB : (data.drop 25).length = 25 := by rw [List.length_drop]; omega
  rw [hhalf]
  constructor
  · simp only [sortedParts, sortedPart, scatterPart, MPI_Send, Nat.zero_mul, List.drop_zero,
      hlen, Option.bind_eq_bind, MPI_Recv, malloc, List.length_replicate]
    simp [hA]
  · simp only [sortedParts, sortedPart, scatterPart, MPI_Send, Nat.one_mul, hB,
      Option.bind_eq_bind, MPI_Recv, malloc, List.length_replicate]
    have : List.take 25 (List.drop 25 data) = List.drop 25 data :=
      List.take_of_length_le (by omega)
    simp [this, hB]

/-- The gather of the two-rank program depends on the local sorter only through
what it returns on the two halves. -/
theorem gathered_congr (q q' : List Int → List Int) (data : List Int)
    (hlen : data.length = NUM_ELEMENTS) (hA : q (data.take 25) = q' (data.take 25))
    (hB : q (data.drop 25) = q' (data.drop 25)) :
    gathered (NUM_ELEMENTS / 2) 2 (sortedParts q (NUM_ELEMENTS / 2) data) data =
      gathered (NUM_ELEMENTS / 2) 2 (sortedParts q' (NUM_ELEMENTS / 2) data) data := by
  obtain ⟨p0, p1⟩ := sortedParts_eq q data hlen
  obtain ⟨p0', p1'⟩ := sortedParts_eq q' data hlen
  simp only [gathered, show List.range 2 = [0, 1] from rfl, List.foldlM_cons, List.foldlM_nil,
    gatherBody, p0, p1, p0', p1', hA, hB]

/-- The programs with the local sorter `qs compare_int`, on an array where
`compare_int` does not overflow: some sorter that sorts every list ascending
gives the same gather, the same two-rank result and the same six-rank result. -/
theorem in_range_transfer (qs : (Int → Int → Int) → List Int → List Int) (hqs : IsQsort qs)
    (data : List Int) (hlen : data.length = NUM_ELEMENTS) (hr : InRange data) :
    ∃ q, IsAscendingSort q ∧
      q (data.take 25) = qs compare_int (data.take 25) ∧
      q (data.drop 25) = qs compare_int (data.drop 25) ∧
      gathered (NUM_ELEMENTS / 2) 2 (sortedParts q (NUM_ELEMENTS / 2) data) data =
        gathered (NUM_ELEMENTS / 2) 2
          (sortedParts (qs compare_int) (NUM_ELEMENTS / 2) data) data ∧
      sortedBy2 q data = sortedBy2 (qs compare_int) data ∧
      rank0Branch q (partitionLoop NUM_ELEMENTS 6)
          (workerReplies q (partitionLoop NUM_ELEMENTS 6) data) 6 data =
        rank0Branch (qs compare_int) (partitionLoop NUM_ELEMENTS 6)
          (workerReplies (qs compare_int) (partitionLoop NUM_ELEMENTS 6) data) 6 data := by
  obtain ⟨q, hq, hagree⟩ := qsort_in_range qs hqs data hr
  have hA := hagree (data.take 25) (fun _ hx => List.mem_of_mem_take hx)
  have hB := hagree (data.drop 25) (fun _ hx => List.mem_of_mem_drop hx)
  have hg := gathered_congr q (qs compare_int) data hlen hA hB
  have h6 := sortedBy_congr q (qs compare_int) data 6 (by decide)
    (fun r _ => hagree _ (chunk_subset data 6 r))
  simp only [sortedBy, hlen] at h6
  refine ⟨q, hq, hA, hB, hg, ?_, h6⟩
  simp only [sortedBy2, rootBranch2, hg]

/-- C6 fails as stated: on the array `INT_MAX, -1, 0, ..., 47` (50 ints), with a
`qsort` that meets its contract and is driven by `compare_int`, the two-rank
program ends with an array that is not ascending: `compare_int(INT_MAX, -1)`
wraps to a negative value, so the first half stays `INT_MAX, -1, 0, ..., 22`. -/
theorem two_rank_overflow_counterexample :
    IsQsort cmpSort ∧ overflowData.length = NUM_ELEMENTS ∧
    compare_int 2147483647 (-1) = -2147483648 ∧
    sortedBy2 (cmpSort compare_int) overflowData =
      some [23, 24, 25, 26, 27, 28, 29, 30, 31, 32, 33, 34, 35, 36, 37, 38, 39, 40, 41, 42, 43,
        44, 45, 46, 47, 2147483647, -1, 0, 1, 2, 3, 4, 5, 6, 7, 8, 9, 10, 11, 12, 13, 14, 15,
        16, 17, 18, 19, 20, 21, 22] ∧
    ¬ ∃ out, sortedBy2 (cmpSort compare_int) overflowData = some out ∧
      out.Sorted (· ≤ ·) ∧ out.Perm overflowData := by
  have h : sortedBy2 (cmpSort compare_int) overflowData =
      some [23, 24, 25, 26, 27, 28, 29, 30, 31, 32, 33, 34, 35, 36, 37, 38, 39, 40, 41, 42, 43,
        44, 45, 46, 47, 2147483647, -1, 0, 1, 2, 3, 4, 5, 6, 7, 8, 9, 10, 11, 12, 13, 14, 15,
        16, 17, 18, 19, 20, 21, 22] := by decide
  refine ⟨cmpSort_isQsort, by decide, by decide, h, ?_⟩
  rintro ⟨out, ho, hs, -⟩
  rw [h] at ho
  cases ho
  revert hs
  decide

/-- C6 as amended: in the two-rank program, for every array of 50 ints and every
`qsort` that meets its contract, the scatter delivers `data[0..25)` to rank 0
and `data[25..50)` to rank 1, 25 ints each; and when `compare_int` does not
overflow on the array (the difference of any two values is a C `int`, as for
every array the program generates), the gather leaves the two sorted halves in
`data` and after `merge(data, 25, &data[25], 25)` the array of rank 0 is
ascending and a permutation of the original array. -/
theorem two_rank_sorted_in_range (qs : (Int → Int → Int) → List Int → List Int)
    (hqs : IsQsort qs) (data : List Int) (hlen : data.length = NUM_ELEMENTS) :
    scatterPart data (NUM_ELEMENTS / 2) 0 = some (data.take 25) ∧
    scatterPart data (NUM_ELEMENTS / 2) 1 = some (data.drop 25) ∧
    (data.take 25).length = 25 ∧ (data.drop 25).length = 25 ∧
    (InRange data →
      gathered (NUM_ELEMENTS / 2) 2 (sortedParts (qs compare_int) (NUM_ELEMENTS / 2) data)
          data =
        some (qs compare_int (data.take 25) ++ qs compare_int (data.drop 25)) ∧
      ∃ out, sortedBy2 (qs compare_int) data = some out ∧ out.Sorted (· ≤ ·) ∧
        out.Perm data) ∧
    (∀ rand : Nat → Nat, InRange (generate rand)) := by
  obtain ⟨h1, h2, h3, h4, -⟩ :=
    two_rank_sorted_of_ascending sampleSort sampleSort_isAscendingSort data hlen
  refine ⟨h1, h2, h3, h4, ?_, generate_inRange⟩
  intro hr
  obtain ⟨q, hq, hA, hB, hg, h2r, -⟩ := in_range_transfer qs hqs data hlen hr
  obtain ⟨-, -, -, -, hgq, hout⟩ := two_rank_sorted_of_ascending q hq data hlen
  rw [hg, hA, hB] at hgq
  rw [h2r] at hout
  exact ⟨hgq, hout⟩

/-- Witness for the amended C6: the comparator-driven insertion sort on the
array generated from the sample `rand()` stream. -/
theorem two_rank_sorted_in_range_witness :
    scatterPart (generate sampleRand) (NUM_ELEMENTS / 2) 0 =
      some ((generate sampleRand).take 25) ∧
    scatterPart (generate sampleRand) (NUM_ELEMENTS / 2) 1 =
      some ((generate sampleRand).drop 25) ∧
    gathered (NUM_ELEMENTS / 2) 2
        (sortedParts (cmpSort compare_int) (NUM_ELEMENTS / 2) (generate sampleRand))
        (generate sampleRand) =
      some (cmpSort compare_int ((generate sampleRand).take 25) ++
        cmpSort compare_int ((generate sampleRand).drop 25)) ∧
    ∃ out, sortedBy2 (cmpSort compare_int) (generate sampleRand) = some out ∧
      out.Sorted (· ≤ ·) ∧ out.Perm (generate sampleRand) :=
  ⟨(two_rank_sorted_in_range cmpSort cmpSort_isQsort (generate sampleRand) (by decide)).1,
    (two_rank_sorted_in_range cmpSort cmpSort_isQsort (generate sampleRand) (by decide)).2.1,
    ((two_rank_sorted_in_range cmpSort cmpSort_isQsort (generate sampleRand)
      (by decide)).2.2.2.2.1 (generate_inRange sampleRand)).1,
    ((two_rank_sorted_in_range cmpSort cmpSort_isQsort (generate sampleRand)
      (by decide)).2.2.2.2.1 (generate_inRange sampleRand)).2⟩

/-- C19 fails as stated: on the array `INT_MAX, -1, 0, ..., 47`, with a `qsort`
that meets its contract and is driven by `compare_int`, the two-rank and the
six-rank program end with different arrays, and neither is the ascending sort
of the input. -/
theorem pipelines_overflow_counterexample :
    IsQsort cmpSort ∧ overflowData.length = NUM_ELEMENTS ∧
    sortedBy2 (cmpSort compare_int) overflowData =
      some [23, 24, 25, 26, 27, 28, 29, 30, 31, 32, 33, 34, 35, 36, 37, 38, 39, 40, 41, 42, 43,
        44, 45, 46, 47, 2147483647, -1, 0, 1, 2, 3, 4, 5, 6, 7, 8, 9, 10, 11, 12, 13, 14, 15,
        16, 17, 18, 19, 20, 21, 22] ∧
    rank0Branch (cmpSort compare_int) (partitionLoop NUM_ELEMENTS 6)
        (workerReplies (cmpSort compare_int) (partitionLoop NUM_ELEMENTS 6) overflowData) 6
        overflowData =
      some [7, 8, 9, 10, 11, 12, 13, 14, 15, 16, 17, 18, 19, 20, 21, 22, 23, 24, 25, 26, 27,
        28, 29, 30, 31, 32, 33, 34, 35, 36, 37, 38, 39, 40, 41, 42, 43, 44, 45, 46, 47,
        2147483647, -1, 0, 1, 2, 3, 4, 5, 6] ∧
    sortedBy2 (cmpSort compare_int) overflowData ≠
      rank0Branch (cmpSort compare_int) (partitionLoop NUM_ELEMENTS 6)
        (workerReplies (cmpSort compare_int) (partitionLoop NUM_ELEMENTS 6) overflowData) 6
        overflowData ∧
    sortedBy2 (cmpSort compare_int) overflowData ≠
      some (List.insertionSort (· ≤ ·) overflowData) ∧
    rank0Branch (cmpSort compare_int) (partitionLoop NUM_ELEMENTS 6)
        (workerReplies (cmpSort compare_int) (partitionLoop NUM_ELEMENTS 6) overflowData) 6
        overflowData ≠
      some (List.insertionSort (· ≤ ·) overflowData) := by
  refine ⟨cmpSort_isQsort, ?_, ?_, ?_, ?_, ?_, ?_⟩ <;> decide

/-- C19 as amended: for every array of 50 ints on which `compare_int` does not
overflow (the difference of any two values is a C `int`, as for every array the
program generates) and every `qsort` that meets its contract, rank 0 of the
two-rank program and rank 0 of the six-rank program end with the same array,
the ascending sort of the input. -/
theorem pipelines_agree_in_range (qs : (Int → Int → Int) → List Int → List Int)
    (hqs : IsQsort qs) (data : List Int) (hlen : data.length = NUM_ELEMENTS)
    (hr : InRange data) :
    sortedBy2 (qs compare_int) data = some (List.insertionSort (· ≤ ·) data) ∧
    rank0Branch (qs compare_int) (partitionLoop NUM_ELEMENTS 6)
      (workerReplies (qs compare_int) (partitionLoop NUM_ELEMENTS 6) data) 6 data =
        some (List.insertionSort (· ≤ ·) data) ∧
    sortedBy2 (qs compare_int) data =
      rank0Branch (qs compare_int) (partitionLoop NUM_ELEMENTS 6)
        (workerReplies (qs compare_int) (partitionLoop NUM_ELEMENTS 6) data) 6 data ∧
    (∀ rand : Nat → Nat, InRange (generate rand)) := by
  obtain ⟨q, hq, -, -, -, h2, h6⟩ := in_range_transfer qs hqs data hlen hr
  obtain ⟨e2, e6, e⟩ := pipelines_agree_of_ascending q hq data hlen
  rw [h2] at e2 e
  rw [h6] at e6 e
  exact ⟨e2, e6, e, generate_inRange⟩

/-- Witness for the amended C19: the comparator-driven insertion sort on the
array generated from the sample `rand()` stream. -/
theorem pipelines_agree_in_range_witness :
    sortedBy2 (cmpSort compare_int) (generate sampleRand) =
      some (List.insertionSort (· ≤ ·) (generate sampleRand)) ∧
    rank0Branch (cmpSort compare_int) (partitionLoop NUM_ELEMENTS 6)
      (workerReplies (cmpSort compare_int) (partitionLoop NUM_ELEMENTS 6)
        (generate sampleRand)) 6 (generate sampleRand) =
        some (List.insertionSort (· ≤ ·) (generate sampleRand)) ∧
    sortedBy2 (cmpSort compare_int) (generate sampleRand) =
      rank0Branch (cmpSort compare_int) (partitionLoop NUM_ELEMENTS 6)
        (workerReplies (cmpSort compare_int) (partitionLoop NUM_ELEMENTS 6)
          (generate sampleRand)) 6 (generate sampleRand) ∧
    (∀ rand : Nat → Nat, InRange (generate rand)) :=
  pipelines_agree_in_range cmpSort cmpSort_isQsort (generate sampleRand) (by decide)
    (generate_inRange sampleRand)

end ParSort
